import Mathlib

/-!
Verification of the AI-Assistant text-retrieval core of the Plain-Language
SCORM repository.  The JavaScript source (tokenizer, scorer, content indexer
and query answerer) is embedded shallowly: strings become `List Char` /
`String`, JavaScript numbers used for scores become `ℚ`, regular-expression
tests and replacements become explicit scanning functions, and the dynamic
course tree consumed by the indexer becomes an inductive `JSVal` with
JavaScript truthiness and property access, where a thrown `TypeError`
becomes `Except.error`.
-/

set_option maxRecDepth 100000
set_option maxHeartbeats 1000000

namespace PlainLang

/-- The apostrophe character, used inside several source strings and
regular expressions. -/
def apoC : Char := Char.ofNat 39

/-- The apostrophe as a one-character string. -/
def apoS : String := String.mk [apoC]

/-- JavaScript `\w` (ASCII word character: letter, digit or underscore). -/
def isWordChar (c : Char) : Bool :=
  (('a' ≤ c && c ≤ 'z') || ('A' ≤ c && c ≤ 'Z') || ('0' ≤ c && c ≤ '9') || c = '_')

/-- JavaScript `\s` restricted to the ASCII whitespace characters that can
occur in the course texts. -/
def isSpaceChar (c : Char) : Bool :=
  (c = ' ' || c = '\t' || c = '\n' || c = '\r' || c = Char.ofNat 11 || c = Char.ofNat 12)

/-- ASCII lowercase letter. -/
def isLowerChar (c : Char) : Bool := ('a' ≤ c && c ≤ 'z')

/-- ASCII uppercase letter. -/
def isUpperChar (c : Char) : Bool := ('A' ≤ c && c ≤ 'Z')

/-- ASCII letter (`[A-Za-z]`). -/
def isLetterChar (c : Char) : Bool := (isLowerChar c || isUpperChar c)

/-- `String.prototype.toLowerCase` on the ASCII range. -/
def toLowerChar (c : Char) : Char :=
  if isUpperChar c then Char.ofNat (c.toNat + 32) else c

/-- Lowercase a character list. -/
def lowerL (l : List Char) : List Char := l.map toLowerChar

/-- `a` is a prefix of `b` (character lists). -/
def lpre : List Char → List Char → Bool
  | [], _ => true
  | _ :: _, [] => false
  | a :: as, b :: bs => (a = b) && lpre as bs

/-- `hay.indexOf(needle) >= 0`: the needle occurs contiguously in the hay. -/
def hasSub (needle : List Char) : List Char → Bool
  | [] => lpre needle []
  | c :: cs => lpre needle (c :: cs) || hasSub needle cs

/-- Split on runs of whitespace, dropping empty pieces (the effect of
`split(/\s+/).filter(Boolean)` on a string whose only separators are
whitespace). `acc` holds the characters of the current token, reversed. -/
def splitWsAux (acc : List Char) : List Char → List (List Char)
  | [] => if acc = [] then [] else [acc.reverse]
  | c :: cs =>
    if isSpaceChar c then
      if acc = [] then splitWsAux [] cs else acc.reverse :: splitWsAux [] cs
    else splitWsAux (c :: acc) cs

/-- Tokens of a character list. -/
def splitWs (l : List Char) : List (List Char) := splitWsAux [] l

/-- Source `tokenize`:
`(t || '').toLowerCase().replace(/[^\w\s]/g, ' ').split(/\s+/).filter(Boolean)`. -/
def tokenizeL (t : List Char) : List (List Char) :=
  splitWs ((lowerL t).map (fun c => if isWordChar c || isSpaceChar c then c else ' '))

/-- `tokenize` on strings. -/
def tokenize (t : String) : List (List Char) := tokenizeL t.toList

/-- The contribution of one query token to the `scoreMatch` accumulator `n`:
`1` for a verbatim hit in the candidate token set, else `0.5` when some
candidate token of length at least 3 contains the query token as a
substring, else `0` (source lines 25-29). -/
def tokContrib (words : List (List Char)) (q : List Char) : ℚ :=
  if q ∈ words then 1
  else if words.any (fun w => decide (3 ≤ w.length) && hasSub q w) then 1/2
  else 0

/-- Source `scoreMatch(queryTokens, text)`: accumulate the per-token
contributions over the candidate's tokens and divide by the number of query
tokens, returning `0` for an empty query-token sequence. -/
def scoreMatchL (queryTokens : List (List Char)) (text : List Char) : ℚ :=
  let words := tokenizeL text
  let n := queryTokens.foldl (fun acc q => acc + tokContrib words q) 0
  if queryTokens.length ≠ 0 then n / (queryTokens.length : ℚ) else 0

/-- `scoreMatch` with the candidate given as a string. -/
def scoreMatch (queryTokens : List (List Char)) (text : String) : ℚ :=
  scoreMatchL queryTokens text.toList

/-! ## Generic scanning machinery for the source's regex replacements

Each JavaScript `replace(re, …)`/`match(re)` with the `g` flag scans left to
right: at each position it attempts a match; on success it consumes the whole
match and resumes after it, otherwise it advances one character.  The drivers
below take a "try to match here" function returning the number of characters
consumed (and, for replacement, the emitted characters); fuel bounded by the
string length keeps the recursion structural so that the kernel can evaluate
them. -/

/-- Driver for a global replace.  `f l` returns `some (k, e)` when the
pattern matches a prefix of `l`, consuming `k ≥ 1` characters and emitting
`e`. -/
def gsubF (f : List Char → Option (Nat × List Char)) : Nat → List Char → List Char
  | 0, l => l
  | _ + 1, [] => []
  | fuel + 1, c :: rest =>
    match f (c :: rest) with
    | some (k, e) => e ++ gsubF f fuel ((c :: rest).drop k)
    | none => c :: gsubF f fuel rest

/-- Global replace over a whole character list. -/
def gsub (f : List Char → Option (Nat × List Char)) (l : List Char) : List Char :=
  gsubF f l.length l

/-- Driver for `String.prototype.match` with the `g` flag: collect the
non-overlapping matches left to right. -/
def gmatchF (f : List Char → Option Nat) : Nat → List Char → List (List Char)
  | 0, _ => []
  | _ + 1, [] => []
  | fuel + 1, c :: rest =>
    match f (c :: rest) with
    | some k => (c :: rest).take k :: gmatchF f fuel ((c :: rest).drop k)
    | none => gmatchF f fuel rest

/-- All matches of a pattern in a character list, in source order. -/
def gmatch (f : List Char → Option Nat) (l : List Char) : List (List Char) :=
  gmatchF f l.length l

/-- Leftmost match of a pattern (non-global `match`, giving `m[0]`). -/
def firstMatchF (f : List Char → Option Nat) : Nat → List Char → Option (List Char)
  | 0, _ => none
  | _ + 1, [] => none
  | fuel + 1, c :: rest =>
    match f (c :: rest) with
    | some k => some ((c :: rest).take k)
    | none => firstMatchF f fuel rest

/-- Leftmost match over a whole character list. -/
def firstMatch (f : List Char → Option Nat) (l : List Char) : Option (List Char) :=
  firstMatchF f l.length l

/-- `replace(/\s+/g, ' ')`: collapse every whitespace run to one space.
`prevSpace` records whether the previous character was part of a run. -/
def collapseWsAux (prevSpace : Bool) : List Char → List Char
  | [] => []
  | c :: rest =>
    if isSpaceChar c then
      if prevSpace then collapseWsAux true rest else ' ' :: collapseWsAux true rest
    else c :: collapseWsAux false rest

/-- Collapse whitespace runs to single spaces. -/
def collapseWs (l : List Char) : List Char := collapseWsAux false l

/-- Drop a trailing whitespace run. -/
def dropTrailWs : List Char → List Char
  | [] => []
  | c :: rest =>
    let r := dropTrailWs rest
    if r.isEmpty && isSpaceChar c then [] else c :: r

/-- `String.prototype.trim`. -/
def trimL (l : List Char) : List Char :=
  dropTrailWs (l.dropWhile (fun c => isSpaceChar c))

/-- The punctuation class `[.,;:!?]` of `cleanText`. -/
def isPunctC (c : Char) : Bool :=
  (c = '.' || c = ',' || c = ';' || c = ':' || c = '!' || c = '?')

/-- The sentence-terminal class `[.?!]`. -/
def isTermC (c : Char) : Bool := (c = '.' || c = '?' || c = '!')

/-- Matcher for `replace(/\s+([.,;:!?])/g, '$1')`. -/
def tryWsPunct (l : List Char) : Option (Nat × List Char) :=
  let w := l.takeWhile (fun c => isSpaceChar c)
  if w = [] then none
  else
    match l.drop w.length with
    | c :: _ => if isPunctC c then some (w.length + 1, [c]) else none
    | [] => none

/-- `/[.?!]$/.test t`. -/
def endsWithTerm (l : List Char) : Bool :=
  match l.getLast? with
  | some c => isTermC c
  | none => false

/-- `/…$/.test t`. -/
def endsWithEllip (l : List Char) : Bool := l.getLast? = some '…'

/-- `replace(/[.?!]+$/, m => m.charAt(0))`: collapse a trailing run of
sentence terminators to its first character. -/
def collapseTrailTerm (l : List Char) : List Char :=
  let k := (l.reverse.takeWhile (fun c => isTermC c)).length
  if k = 0 then l else l.take (l.length - k + 1)

/-- ASCII `toUpperCase` of one character. -/
def toUpperChar (c : Char) : Char :=
  if isLowerChar c then Char.ofNat (c.toNat - 32) else c

/-- `replace(/([.?!])([A-Za-z])/g, '$1 $2')`: space after sentence
punctuation that is directly followed by a letter. -/
def insSpacePunctLetter : List Char → List Char
  | a :: b :: rest =>
    if isTermC a && isLetterChar b then a :: ' ' :: b :: insSpacePunctLetter rest
    else a :: insSpacePunctLetter (b :: rest)
  | l => l

/-- Matcher for `replace(/([a-z]'[a-z]*)([A-Z])/g, '$1 $2')` (run-together
contraction such as "you'llRecognise"). -/
def tryContraction (l : List Char) : Option (Nat × List Char) :=
  match l with
  | c :: q :: rest =>
    if isLowerChar c && q = apoC then
      let run := rest.takeWhile (fun x => isLowerChar x)
      match rest.drop run.length with
      | u :: _ =>
        if isUpperChar u then some (2 + run.length + 1, c :: q :: (run ++ [' ', u]))
        else none
      | [] => none
    else none
  | _ => none

/-- Source `cleanText` (lines 35-47): collapse whitespace, trim, fix spacing
around punctuation, terminate and capitalize the sentence, collapse trailing
terminators, and repair two run-together artifacts. -/
def cleanTextL (s : List Char) : List Char :=
  if s = [] then []
  else
    let t := trimL (collapseWs s)
    let t := gsub tryWsPunct t
    let t := if t ≠ [] && !endsWithTerm t && !endsWithEllip t then t ++ ['.'] else t
    let t := match t with
      | c :: rest => toUpperChar c :: rest
      | [] => []
    let t := if t ≠ [] && endsWithTerm t then collapseTrailTerm t else t
    let t := insSpacePunctLetter t
    gsub tryContraction t

/-- `cleanText` on strings. -/
def cleanText (s : String) : String := String.mk (cleanTextL s.toList)

/-! ## `simplifyForAnswer` -/

/-- Matcher for `replace(/\s*\([^)]*\)\s*/g, ' ')` (parenthetical asides). -/
def tryParen (l : List Char) : Option (Nat × List Char) :=
  let w := l.takeWhile (fun c => isSpaceChar c)
  match l.drop w.length with
  | '(' :: rest =>
    let body := rest.takeWhile (fun c => c ≠ ')')
    match rest.drop body.length with
    | ')' :: rest2 =>
      let tw := rest2.takeWhile (fun c => isSpaceChar c)
      some (w.length + 1 + body.length + 1 + tw.length, [' '])
    | _ => none
  | _ => none

/-- `[\w&]`. -/
def isWordAmp (c : Char) : Bool := (isWordChar c || c = '&')

/-- Greedy `(?:\s+[\w&]+)*`: the number of characters consumed by the
trailing word groups of the run-together pattern. -/
def grabGroupsF : Nat → List Char → Nat
  | 0, _ => 0
  | fuel + 1, l =>
    let w := l.takeWhile (fun c => isSpaceChar c)
    if w = [] then 0
    else
      let rest := l.drop w.length
      let g := rest.takeWhile (fun c => isWordAmp c)
      if g = [] then 0
      else w.length + g.length + grabGroupsF fuel (rest.drop g.length)

/-- Characters consumed by `(?:\s+[\w&]+)*` at the head of `l`. -/
def grabGroups (l : List Char) : Nat := grabGroupsF l.length l

/-- Matcher for `replace(/([a-z])([A-Z][a-z]+(?:\s+[\w&]+)*)/g, '$1\n• $2')`
(run-together heading-like phrase). -/
def tryRunTogether (l : List Char) : Option (Nat × List Char) :=
  match l with
  | c :: u :: rest =>
    if isLowerChar c && isUpperChar u then
      let run := rest.takeWhile (fun x => isLowerChar x)
      if run = [] then none
      else
        let after := rest.drop run.length
        let gl := grabGroups after
        some (2 + run.length + gl, c :: '\n' :: '•' :: ' ' :: u :: (run ++ after.take gl))
    else none
  | _ => none

/-- Case-insensitive prefix test (`pat` given in lowercase). -/
def lpreCI (pat : List Char) (l : List Char) : Bool := lpre pat (lowerL l)

/-- Case-insensitive containment (`pat` given in lowercase). -/
def containsCI (pat : List Char) (l : List Char) : Bool := hasSub pat (lowerL l)

/-- The literal of the Key-Principles repair. -/
def keyPrincLit : List Char := "key principles of plain language".toList

/-- Test for `/Key Principles of Plain Language(?=\s*Short Sentences)/i` at
the head of `l`. -/
def tryKeyPrinc (l : List Char) : Bool :=
  lpreCI keyPrincLit l &&
    (let rest := l.drop keyPrincLit.length
     let w := rest.takeWhile (fun c => isSpaceChar c)
     lpreCI "short sentences".toList (rest.drop w.length))

/-- The non-global Key-Principles replace: rewrite the leftmost occurrence
only, keeping the looked-ahead text. -/
def replKeyPrinc : List Char → List Char
  | [] => []
  | c :: rest =>
    if tryKeyPrinc (c :: rest) then
      "Key Principles of Plain Language\n• ".toList ++ (c :: rest).drop keyPrincLit.length
    else c :: replKeyPrinc rest

/-- Matcher for `replace(/LIT(?=[A-Z])/g, REPL)` (used for the
"Short Sentences" and "Active Voice" bullet repairs; the lookahead is not
consumed). -/
def tryLitBeforeUpper (lit repl : List Char) (l : List Char) : Option (Nat × List Char) :=
  if lpre lit l then
    match l.drop lit.length with
    | u :: _ => if isUpperChar u then some (lit.length, repl) else none
    | [] => none
  else none

/-- `replace(/\s*\([^)]*$/g, '')`: delete a trailing unclosed parenthetical. -/
def remTrailParen : List Char → List Char
  | [] => []
  | c :: rest =>
    if (let w := (c :: rest).takeWhile (fun x => isSpaceChar x)
        match (c :: rest).drop w.length with
        | '(' :: body => body.all (fun x => x ≠ ')')
        | _ => false) then []
    else c :: remTrailParen rest

/-- One alternative `VERB\s+[^.!?]+[.!?]` of the objectives regex, matched
case-insensitively at the head of `l` (`verb` in lowercase). -/
def tryVerbClause (verb : List Char) (l : List Char) : Option Nat :=
  if lpreCI verb l then
    let rest := l.drop verb.length
    let w := rest.takeWhile (fun c => isSpaceChar c)
    if w = [] then none
    else
      let rest2 := rest.drop w.length
      let body := rest2.takeWhile (fun c => !isTermC c)
      if body = [] then none
      else
        match rest2.drop body.length with
        | p :: _ => if isTermC p then some (verb.length + w.length + body.length + 1) else none
        | [] => none
  else none

/-- The objectives regex
`/(Recognise\s+[^.!?]+[.!?]|Apply\s+[^.!?]+[.!?]|Use\s+[^.!?]+[.!?])/gi`,
alternatives tried in source order. -/
def tryObj (l : List Char) : Option Nat :=
  match tryVerbClause "recognise".toList l with
  | some k => some k
  | none =>
    match tryVerbClause "apply".toList l with
    | some k => some k
    | none => tryVerbClause "use".toList l

/-- All objective clauses found in a text, in source order. -/
def objMatches (t : List Char) : List (List Char) := gmatch tryObj t

/-- `/(Recognise|Apply|Use)\s+/i` at the head of `l`. -/
def tryVerbWs (l : List Char) : Option Nat :=
  let att := fun (verb : List Char) =>
    if lpreCI verb l then
      let w := (l.drop verb.length).takeWhile (fun c => isSpaceChar c)
      if w = [] then none else some (verb.length + w.length)
    else none
  match att "recognise".toList with
  | some k => some k
  | none =>
    match att "apply".toList with
    | some k => some k
    | none => att "use".toList

/-- `split(/(?<=[.!?])\s+/)`: split on whitespace runs preceded by a
sentence terminator.  `sep` is true while consuming a separator run; `cur`
holds the reversed current part. -/
def splitLBgo (sep : Bool) (cur : List Char) : List Char → List (List Char)
  | [] => if sep then [[]] else [cur.reverse]
  | c :: rest =>
    if sep then
      if isSpaceChar c then splitLBgo true [] rest else splitLBgo false [c] rest
    else
      if isSpaceChar c && (match cur with | p :: _ => isTermC p | [] => false) then
        cur.reverse :: splitLBgo true [] rest
      else splitLBgo false (c :: cur) rest

/-- Lookbehind sentence split. -/
def splitLB (l : List Char) : List (List Char) := splitLBgo false [] l

/-- The objectives fallback loop (source lines 78-85): scan sentences in
order, keeping up to three short sentences that contain an objective verb,
preferring the extracted verb-led clause. -/
def objFallbackTake : List (List Char) → Nat → List (List Char)
  | [], _ => []
  | s :: rest, cap =>
    if cap = 0 then []
    else if (firstMatch tryVerbWs s).isSome && decide (s.length < 130) then
      (match firstMatch tryObj s with
       | some m => m
       | none => s) :: objFallbackTake rest (cap - 1)
    else objFallbackTake rest cap

/-- Split on a literal separator character (JavaScript `split('\n')`). -/
def splitCharGo (sep : Char) (cur : List Char) : List Char → List (List Char)
  | [] => [cur.reverse]
  | c :: rest =>
    if c = sep then cur.reverse :: splitCharGo sep [] rest
    else splitCharGo sep (c :: cur) rest

/-- `split(sep)`. -/
def splitChar (sep : Char) (l : List Char) : List (List Char) := splitCharGo sep [] l

/-- `Array.prototype.join` with a separator. -/
def joinWith (sep : List Char) : List (List Char) → List Char
  | [] => []
  | [x] => x
  | x :: y :: rest => x ++ sep ++ joinWith sep (y :: rest)

/-- Matcher for `replace(/([.?!])\s+/g, '$1\n')`. -/
def tryTermWs (l : List Char) : Option (Nat × List Char) :=
  match l with
  | p :: rest =>
    if isTermC p then
      let w := rest.takeWhile (fun c => isSpaceChar c)
      if w = [] then none else some (1 + w.length, [p, '\n'])
    else none
  | [] => none

/-- The take loop of the general summary (lines 95-100): up to two pieces of
length at least 10, while the accumulated length stays under 220. -/
def genTake : List (List Char) → Nat → Nat → List (List Char)
  | [], _, _ => []
  | p :: rest, len, cnt =>
    if len < 220 && cnt < 2 then
      let s := trimL p
      if 10 ≤ s.length then s :: genTake rest (len + s.length) (cnt + 1)
      else genTake rest len cnt
    else []

/-- Lines 88-101 of `simplifyForAnswer`: keep bullet lines when present,
otherwise summarize to the first sentences. -/
def generalTail (t : List Char) : List Char :=
  if hasSub "\n• ".toList t then
    let lines := (splitChar '\n' t).filter (fun l => trimL l ≠ [])
    joinWith ['\n'] (lines.take 6)
  else
    let sep := splitChar '\n' (gsub tryTermWs t)
    let taken := genTake sep 0 0
    cleanTextL (if taken ≠ [] then joinWith [' '] taken else t.take 200)

/-- The preprocessing pipeline of `simplifyForAnswer` (source lines 55-68):
whitespace normalization, parenthetical removal, run-together repairs, and
removal of a trailing unclosed parenthetical, after which all whitespace is
collapsed again. -/
def simplifyPre (text : List Char) : List Char :=
  let t := trimL (collapseWs text)
  let t := trimL (collapseWs (gsub tryParen t))
  let t := gsub tryRunTogether t
  let t := replKeyPrinc t
  let t := gsub (tryLitBeforeUpper "Short Sentences".toList "Short Sentences\n• ".toList) t
  let t := gsub (tryLitBeforeUpper "Active Voice".toList "Active Voice\n• ".toList) t
  let t := remTrailParen t
  trimL (collapseWs t)

/-- Source `simplifyForAnswer(text, intent)` (lines 53-102). -/
def simplifyForAnswerL (text : List Char) (intent : String) : List Char :=
  if text = [] then []
  else
    let t := simplifyPre text
    if intent = "objectives" then
      let ms := objMatches t
      if 1 ≤ ms.length then
        joinWith ['\n'] ((ms.take 3).map (fun s => '•' :: ' ' :: cleanTextL s))
      else
        let taken := objFallbackTake (splitLB t) 3
        if taken ≠ [] then
          joinWith ['\n'] (taken.map (fun s => '•' :: ' ' :: cleanTextL s))
        else generalTail t
    else generalTail t

/-- `simplifyForAnswer` on strings. -/
def simplifyForAnswer (text : String) (intent : String) : String :=
  String.mk (simplifyForAnswerL text.toList intent)

/-! ## `pickRelevantSentences` -/

/-- Matcher for `replace(/([.?!])([A-Z])/g, '$1\n$2')`. -/
def tryTermUpper (l : List Char) : Option (Nat × List Char) :=
  match l with
  | p :: u :: _ => if isTermC p && isUpperChar u then some (2, [p, '\n', u]) else none
  | _ => none

/-- The sentence list of `pickRelevantSentences` (lines 113-114): split at
terminators followed by whitespace or an uppercase letter, trim, and keep
pieces of length at least 12. -/
def sentencesOf (text : List Char) : List (List Char) :=
  let block := gsub tryTermWs (gsub tryTermUpper text)
  ((splitChar '\n' block).map trimL).filter (fun s => decide (12 ≤ s.length))

/-- `/British|your uncle|Egress|Bob's|Not Recommended/i.test s`. -/
def tableArtifact (s : List Char) : Bool :=
  containsCI "british".toList s || containsCI "your uncle".toList s ||
  containsCI "egress".toList s || containsCI ("bob".toList ++ [apoC, 's']) s ||
  containsCI "not recommended".toList s

/-- Apply the focus filter of lines 120-126: when the user asked only about
passive (or only active) voice, keep just the sentences mentioning it, when
any exist. -/
def focusSentences (focusTerm : Option String) (sentences : List (List Char)) :
    List (List Char) :=
  if focusTerm = some "passive" then
    let p := sentences.filter (containsCI "passive voice".toList)
    if p ≠ [] then p else sentences
  else if focusTerm = some "active" then
    let a := sentences.filter (containsCI "active voice".toList)
    if a ≠ [] then a else sentences
  else sentences

/-- Stable insertion for a descending sort by the rational second component
(the effect of `sort((a, b) => b.sc - a.sc)`, which is stable). -/
def insDesc {α : Type} (x : α × ℚ) : List (α × ℚ) → List (α × ℚ)
  | [] => [x]
  | y :: ys => if y.2 > x.2 then y :: insDesc x ys else x :: y :: ys

/-- Stable descending sort by score. -/
def sortDesc {α : Type} : List (α × ℚ) → List (α × ℚ)
  | [] => []
  | x :: xs => insDesc x (sortDesc xs)

/-- `out.lastIndexOf('. ', from)`: greatest start index `≤ from` of the
two-character needle `". "`. -/
def lastIndexOfDotSpace (l : List Char) (f : Nat) : Option Nat :=
  (List.range (f + 1)).foldl
    (fun acc i => if lpre ['.', ' '] (l.drop i) then some i else acc) none

/-- `out.slice(0, maxLen - 1).replace(/\s+\S*$/, '') + '…'`. -/
def ellipTrunc (out : List Char) (maxLen : Nat) : List Char :=
  let h := out.take (maxLen - 1)
  let r := h.reverse
  let nws := r.takeWhile (fun c => !isSpaceChar c)
  let ws := (r.drop nws.length).takeWhile (fun c => isSpaceChar c)
  (if ws = [] then h else (r.drop (nws.length + ws.length)).reverse) ++ ['…']

/-- Lines 145-149: prefer cutting at a sentence boundary, else truncate at
a word boundary with an ellipsis. -/
def truncOut (out : List Char) (maxLen : Nat) : List Char :=
  match lastIndexOfDotSpace out maxLen with
  | some i =>
    if (i : ℚ) > (maxLen : ℚ) * (3 / 5) then out.take (i + 1)
    else ellipTrunc out maxLen
  | none => ellipTrunc out maxLen

/-- Source `pickRelevantSentences(text, queryTokens, maxLen, opts)`
(lines 108-151). -/
def pickRelevantSentencesL (text : List Char) (queryTokens : List (List Char))
    (maxLen0 : Nat) (focusTerm : Option String) (excludeTable : Bool) : List Char :=
  let maxLen := if maxLen0 = 0 then 200 else maxLen0
  if text = [] || queryTokens.length = 0 then []
  else
    let sentences := sentencesOf text
    if sentences = [] then
      cleanTextL (text.take maxLen ++ (if maxLen < text.length then ['…'] else []))
    else
      let sentences := focusSentences focusTerm sentences
      let sentences :=
        if excludeTable then
          let fam := sentences.filter (fun s => !tableArtifact s)
          if fam ≠ [] then fam else sentences
        else sentences
      let withScore :=
        (sentences.map (fun s => (s, scoreMatchL queryTokens s))).filter (fun x => 0 < x.2)
      let taken := ((sortDesc withScore).take 2).map (fun x => x.1)
      if taken = [] then
        cleanTextL (text.take maxLen ++ (if maxLen < text.length then ['…'] else []))
      else
        let out := trimL (joinWith [' '] taken)
        let out := if maxLen < out.length then truncOut out maxLen else out
        cleanTextL out

/-- `pickRelevantSentences` on strings. -/
def pickRelevantSentences (text : String) (queryTokens : List (List Char))
    (maxLen0 : Nat) (focusTerm : Option String) (excludeTable : Bool) : String :=
  String.mk (pickRelevantSentencesL text.toList queryTokens maxLen0 focusTerm excludeTable)

/-! ## Dynamic JavaScript values

The course tree is an arbitrary JavaScript value; the indexer claims are
about its behavior on malformed trees, so the tree is embedded as a dynamic
value type.  Entry identifiers keep their dynamic type because the source
stores `block.id || ''` without conversion. -/

/-- A JavaScript value as far as the indexer observes it. -/
inductive JSVal where
  | null
  | undef
  | bool (b : Bool)
  | num (n : Int)
  | str (s : String)
  | arr (elems : List JSVal)
  | obj (fields : List (String × JSVal))

/-- One indexed fact (a `courseIndex` element). -/
structure Entry where
  text : String
  lessonId : JSVal := .str ""
  blockId : JSVal := .str ""
  lessonTitle : String := ""
  type : String
  correct : JSVal := (.undef)

/-- One block reference of a TOC entry. -/
structure TocBlock where
  blockId : JSVal := .str ""
  title : String

/-- One `courseToc` element. -/
structure TocEntry where
  lessonId : JSVal := .str ""
  lessonTitle : String
  blocks : List TocBlock := []

/-- The answerer's output contract. -/
structure QueryResult where
  ok : Bool
  message : String
deriving DecidableEq

/-! ## Word-boundary pattern tests

The query regexes are alternations of literals and `\s+`-separated word
sequences, some wrapped in `\b…\b`.  `Pat` spells such a pattern out. -/

/-- One atom of a source regex: a literal, or `\s+`. -/
inductive Pat where
  | lit (s : List Char)
  | ws1

/-- Characters consumed by a pattern sequence matching at the head of `l`
(`.ws1` consumes a maximal whitespace run; every literal here starts with a
non-whitespace character, so greedy matching is exact). -/
def patLen : List Pat → List Char → Option Nat
  | [], _ => some 0
  | .lit s :: ps, l =>
    if lpre s l then (patLen ps (l.drop s.length)).map (· + s.length) else none
  | .ws1 :: ps, l =>
    let w := l.takeWhile (fun c => isSpaceChar c)
    if w = [] then none else (patLen ps (l.drop w.length)).map (· + w.length)

/-- `\b` holds between position `i-1` and `i`. -/
def boundaryBefore (l : List Char) (i : Nat) : Bool :=
  i = 0 || !isWordChar (l.getD (i - 1) ' ')

/-- `\b` holds between position `e-1` and `e` (viewed from the left end of
the remainder). -/
def boundaryAfter (l : List Char) (e : Nat) : Bool :=
  decide (l.length ≤ e) || !isWordChar (l.getD e ' ')

/-- Unanchored containment of a pattern. -/
def containsPat (p : List Pat) (l : List Char) : Bool :=
  (List.range (l.length + 1)).any (fun i => (patLen p (l.drop i)).isSome)

/-- Containment with `\b` on both sides. -/
def containsPatB (p : List Pat) (l : List Char) : Bool :=
  (List.range (l.length + 1)).any (fun i =>
    boundaryBefore l i &&
      (match patLen p (l.drop i) with
       | some k => boundaryAfter l (i + k)
       | none => false))

/-- Containment with `\b` on the right side only (`/Objectives\b/`). -/
def containsPatA (p : List Pat) (l : List Char) : Bool :=
  (List.range (l.length + 1)).any (fun i =>
    match patLen p (l.drop i) with
    | some k => boundaryAfter l (i + k)
    | none => false)

/-- Words joined by `\s+`. -/
def wsPat : List String → List Pat
  | [] => []
  | [s] => [.lit s.toList]
  | s :: t :: rest => .lit s.toList :: .ws1 :: wsPat (t :: rest)

/-- `/what does .+ mean/` (the dot does not match line terminators). -/
def whatDoesMean (ql : List Char) : Bool :=
  (List.range (ql.length + 1)).any (fun i =>
    lpre "what does ".toList (ql.drop i) &&
      (List.range (ql.length + 1)).any (fun j =>
        decide (i + 11 ≤ j) && lpre " mean".toList (ql.drop j) &&
          ((ql.drop (i + 10)).take (j - (i + 10))).all (fun c => c ≠ '\n' && c ≠ '\r')))

/-! ## Query intent classification (source lines 203-205, 221, 231-257) -/

/-- `/what is|define|meaning of|what does .+ mean/i.test q`. -/
def isDefinitionalQ (q : String) : Bool :=
  let ql := lowerL q.toList
  containsPat [.lit "what is".toList] ql || containsPat [.lit "define".toList] ql ||
  containsPat [.lit "meaning of".toList] ql || whatDoesMean ql

/-- `/objectives?|goals?|learning outcomes?|what will I learn|what are the objectives/i.test q`
(an unanchored `X s?` alternative matches exactly when `X` occurs). -/
def isObjectivesQ (q : String) : Bool :=
  let ql := lowerL q.toList
  containsPat [.lit "objective".toList] ql || containsPat [.lit "goal".toList] ql ||
  containsPat [.lit "learning outcome".toList] ql ||
  containsPat [.lit "what will i learn".toList] ql ||
  containsPat [.lit "what are the objectives".toList] ql

/-- `/example|quiz|question|practice/i.test q`. -/
def wantExamplesQ (q : String) : Bool :=
  let ql := lowerL q.toList
  containsPat [.lit "example".toList] ql || containsPat [.lit "quiz".toList] ql ||
  containsPat [.lit "question".toList] ql || containsPat [.lit "practice".toList] ql

/-- The quiz-exclusion filter `typeOk` (line 207). -/
def typeOkE (wantEx : Bool) (e : Entry) : Bool :=
  wantEx || (e.type ≠ "question" && e.type ≠ "answer")

/-- `/At the end of the course|Objectives\b/i.test text`. -/
def objEntryMarker (t : String) : Bool :=
  let tl := lowerL t.toList
  containsPat [.lit "at the end of the course".toList] tl ||
  containsPatA [.lit "objectives".toList] tl

/-- `/Recognise|Apply|Use inclusive/i.test text`. -/
def objEntryVerb (t : String) : Bool :=
  let tl := lowerL t.toList
  containsPat [.lit "recognise".toList] tl || containsPat [.lit "apply".toList] tl ||
  containsPat [.lit "use inclusive".toList] tl

/-- The explicit objectives block match (lines 210-214): the first
paragraph/heading entry carrying both markers. -/
def objEntryPick (index : List Entry) (q : String) : Option Entry :=
  (index.filter (fun e =>
    typeOkE (wantExamplesQ q) e && (e.type = "paragraph" || e.type = "heading") &&
    objEntryMarker e.text && objEntryVerb e.text)).head?

/-- The objectives special case fires only for an objectives-intent query
that finds a matching entry (lines 209-219). -/
def objGate (index : List Entry) (q : String) : Option Entry :=
  if isObjectivesQ q then objEntryPick index q else none

/-- `/\binclusive\b/i.test q`. -/
def askInclusiveQ (q : String) : Bool :=
  containsPatB [.lit "inclusive".toList] (lowerL q.toList)

/-- `/inclusive/i.test e.text`. -/
def inclusiveText (e : Entry) : Bool := containsCI "inclusive".toList e.text.toList

/-- `/\bplain\b/i.test(q) && /\blanguage\b/i.test(q) && !/\binclusive\b/i.test(q)`. -/
def plainQ (q : String) : Bool :=
  let ql := lowerL q.toList
  containsPatB [.lit "plain".toList] ql && containsPatB [.lit "language".toList] ql &&
  !containsPatB [.lit "inclusive".toList] ql

/-- `/plain\s+language|plain\s+language\s+means/i.test e.text`. -/
def plainLangText (e : Entry) : Bool :=
  let tl := lowerL e.text.toList
  containsPat (wsPat ["plain", "language"]) tl ||
  containsPat (wsPat ["plain", "language", "means"]) tl

/-- `/\b(active\s+voice|passive\s+voice)\b/i.test q`. -/
def voiceQ (q : String) : Bool :=
  let ql := lowerL q.toList
  containsPatB (wsPat ["active", "voice"]) ql || containsPatB (wsPat ["passive", "voice"]) ql

/-- `/active\s+voice|passive\s+voice/i.test e.text`. -/
def voiceText (e : Entry) : Bool :=
  let tl := lowerL e.text.toList
  containsPat (wsPat ["active", "voice"]) tl || containsPat (wsPat ["passive", "voice"]) tl

/-- `/\bshort\s+sentences\b/i.test q`. -/
def shortQ (q : String) : Bool :=
  containsPatB (wsPat ["short", "sentences"]) (lowerL q.toList)

/-- `/short\s+sentences/i.test e.text`. -/
def shortSentText (e : Entry) : Bool :=
  containsPat (wsPat ["short", "sentences"]) (lowerL e.text.toList)

/-- `/\b(key\s+principles?|principles\s+of\s+plain)\b/i.test q`
(`X s? \b` matches exactly when `Xs` or `X` occurs with a boundary). -/
def keyQ (q : String) : Bool :=
  let ql := lowerL q.toList
  containsPatB (wsPat ["key", "principles"]) ql || containsPatB (wsPat ["key", "principle"]) ql ||
  containsPatB (wsPat ["principles", "of", "plain"]) ql

/-- `/key\s+principles|Short\s+Sentences|Active\s+Voice|Familiar\s+Words/i.test e.text`. -/
def keyPrincText (e : Entry) : Bool :=
  let tl := lowerL e.text.toList
  containsPat (wsPat ["key", "principles"]) tl || containsPat (wsPat ["short", "sentences"]) tl ||
  containsPat (wsPat ["active", "voice"]) tl || containsPat (wsPat ["familiar", "words"]) tl

/-- `/\b(familiar\s+words?|everyday\s+words?|common\s+words?)\b/i.test q`. -/
def famQ (q : String) : Bool :=
  let ql := lowerL q.toList
  containsPatB (wsPat ["familiar", "words"]) ql || containsPatB (wsPat ["familiar", "word"]) ql ||
  containsPatB (wsPat ["everyday", "words"]) ql || containsPatB (wsPat ["everyday", "word"]) ql ||
  containsPatB (wsPat ["common", "words"]) ql || containsPatB (wsPat ["common", "word"]) ql

/-- `/familiar\s+words|Familiar\s+Words|everyday|common\s+words/i.test e.text`. -/
def famText (e : Entry) : Bool :=
  let tl := lowerL e.text.toList
  containsPat (wsPat ["familiar", "words"]) tl || containsCI "everyday".toList e.text.toList ||
  containsPat (wsPat ["common", "words"]) tl

/-- `/\b(introduction|intro|what is this course|course about)\b/i.test q`. -/
def introQ (q : String) : Bool :=
  let ql := lowerL q.toList
  containsPatB [.lit "introduction".toList] ql || containsPatB [.lit "intro".toList] ql ||
  containsPatB [.lit "what is this course".toList] ql ||
  containsPatB [.lit "course about".toList] ql

/-- `/In this course, you'll learn|workplace communication|Words shape/i.test e.text`. -/
def introText (e : Entry) : Bool :=
  let tl := lowerL e.text.toList
  hasSub ("in this course, you".toList ++ [apoC] ++ "ll learn".toList) tl ||
  hasSub "workplace communication".toList tl || hasSub "words shape".toList tl

/-- `/ (\b(?:is|means|refers to|avoids|helps create|involves)\b) /i.test e.text`
(each alternative begins and ends with a letter, so the boundaries next to
the literal spaces always hold). -/
def defBoostText (t : String) : Bool :=
  let tl := lowerL t.toList
  hasSub " is ".toList tl || hasSub " means ".toList tl || hasSub " refers to ".toList tl ||
  hasSub " avoids ".toList tl || hasSub " helps create ".toList tl ||
  hasSub " involves ".toList tl

/-- `/\b(short sentences|active voice|familiar words|key principles)\b/i.test q`
(literal single spaces). -/
def isConceptQ (q : String) : Bool :=
  let ql := lowerL q.toList
  containsPatB [.lit "short sentences".toList] ql ||
  containsPatB [.lit "active voice".toList] ql ||
  containsPatB [.lit "familiar words".toList] ql ||
  containsPatB [.lit "key principles".toList] ql

/-- `var MIN_SCORE = 0.35`. -/
def minScore : ℚ := 0.35

/-- Lines 258-263: the candidate score after the definitional and paragraph
boosts. -/
def boostedScore (q : String) (tokens : List (List Char)) (e : Entry) : ℚ :=
  scoreMatchL tokens e.text.toList +
  (if isDefinitionalQ q && defBoostText e.text then 0.35 else 0) +
  (if (isDefinitionalQ q || isConceptQ q) && e.type = "paragraph" then 0.25 else 0)

/-- One topic-narrowing step: apply the filter when the query asks for the
topic, but keep the previous pool when the filter empties it. -/
def narrow (cond : Bool) (pred : Entry → Bool) (pool : List Entry) : List Entry :=
  if cond then
    let f := pool.filter pred
    if f.isEmpty then pool else f
  else pool

/-- The working candidate pool after all intent filters
(lines 206-255). -/
def finalPool (index : List Entry) (q : String) : List Entry :=
  let pool := index.filter (typeOkE (wantExamplesQ q))
  let pool := if askInclusiveQ q then pool.filter inclusiveText else pool
  let pool := narrow (plainQ q) plainLangText pool
  let pool := narrow (voiceQ q) voiceText pool
  let pool := narrow (shortQ q) shortSentText pool
  let pool := narrow (keyQ q) keyPrincText pool
  let pool := narrow (famQ q) famText pool
  let pool := narrow (introQ q) introText pool
  pool

/-- Lines 273-275: the focus term for the active/passive disambiguation. -/
def focusTermOf (q : String) : Option String :=
  let ql := lowerL q.toList
  if containsPatB (wsPat ["passive", "voice"]) ql &&
      !containsPatB (wsPat ["active", "voice"]) ql then some "passive"
  else if containsPatB (wsPat ["active", "voice"]) ql &&
      !containsPatB (wsPat ["passive", "voice"]) ql then some "active"
  else none

/-- `/\b(familiar\s+words?|familiar\s+words?\s+and\s+expressions?)\b/i.test q`
(line 277). -/
def excludeTableQ (q : String) : Bool :=
  let ql := lowerL q.toList
  containsPatB (wsPat ["familiar", "words"]) ql ||
  containsPatB (wsPat ["familiar", "word"]) ql ||
  containsPatB (wsPat ["familiar", "words", "and", "expressions"]) ql ||
  containsPatB (wsPat ["familiar", "words", "and", "expression"]) ql ||
  containsPatB (wsPat ["familiar", "word", "and", "expressions"]) ql ||
  containsPatB (wsPat ["familiar", "word", "and", "expression"]) ql

/-- Line 199. -/
def stillLoadingMsg : String :=
  "Course content is still loading. Please try again in a moment."

/-- Line 201. -/
def promptMsg : String := "Please ask a question about the course."

/-- Line 226. -/
def inclusiveMissMsg : String :=
  "I couldn" ++ apoS ++
  "t find a definition of inclusive language in the course. Try the \"Inclusive Language\" section, or ask \"what is plain language\" for the difference."

/-- Lines 266-267: the generic not-found message with TOC suggestions. -/
def noMatchMsg (toc : List TocEntry) : String :=
  let topics := ((toc.take 4).map (fun t => t.lessonTitle)).filter (fun s => s ≠ "")
  let joined := String.mk (joinWith ", ".toList (topics.map String.toList))
  "I couldn" ++ apoS ++ "t find that in the course. Try: " ++
    (if joined = "" then "plain language, inclusive communication" else joined) ++ "."

/-- Source `answerFromCourse(q)` (lines 198-296), with the module-level
`courseIndex` and `courseToc` passed explicitly. -/
def answerFromCourse (courseIndex : List Entry) (courseToc : List TocEntry)
    (q : String) : QueryResult :=
  if courseIndex.isEmpty then ⟨false, stillLoadingMsg⟩
  else
    let tokens := tokenize q
    if tokens = [] then ⟨false, promptMsg⟩
    else
      match objGate courseIndex q with
      | some e =>
        ⟨true, "According to the course, the objectives are:\n" ++
          simplifyForAnswer e.text "objectives"⟩
      | none =>
        let pool0 := courseIndex.filter (typeOkE (wantExamplesQ q))
        if askInclusiveQ q && (pool0.filter inclusiveText).isEmpty then ⟨false, inclusiveMissMsg⟩
        else
          let scored := ((finalPool courseIndex q).map
            (fun e => (e, boostedScore q tokens e))).filter (fun x => minScore ≤ x.2)
          match sortDesc scored with
          | [] => ⟨false, noMatchMsg courseToc⟩
          | best :: _ =>
            let fTerm := focusTermOf q
            let exTab := excludeTableQ q
            let maxPick : Nat := if isDefinitionalQ q || isConceptQ q then 260 else 150
            let ex0 := pickRelevantSentencesL best.1.text.toList tokens maxPick fTerm exTab
            let ex := if ex0 ≠ [] then simplifyForAnswerL ex0 "" else ex0
            let frags := if ex ≠ [] then [ex] else []
            let frags :=
              if frags = [] then
                let fall := pickRelevantSentencesL best.1.text.toList tokens
                  (if isDefinitionalQ q || isConceptQ q then 260 else 160) fTerm exTab
                [simplifyForAnswerL (if fall ≠ [] then fall else best.1.text.toList.take 200) ""]
              else frags
            let msg := "According to the course: ".toList ++ joinWith [' '] frags
            let final :=
              if msg.contains '\n' then joinWith ['\n'] ((splitChar '\n' msg).map cleanTextL)
              else cleanTextL msg
            ⟨true, String.mk final⟩

/-! ## The content indexer (source lines 10-15 and 157-196)

Property access on `null`/`undefined`, `for…of` over a non-iterable, and
calling an array method on a non-array raise `TypeError` in JavaScript;
these become `Except.error "TypeError"`.  The recursive `walk` is driven by
fuel (structural in the kernel); `buildFromCourse` supplies fuel from the
tree's size, which the fuel-sufficiency lemmas show is enough. -/

mutual

/-- Structural size of a dynamic value, used as traversal fuel. -/
def jsSize : JSVal → Nat
  | .null => 1
  | .undef => 1
  | .bool _ => 1
  | .num _ => 1
  | .str _ => 1
  | .arr xs => 1 + jsSizeL xs
  | .obj fs => 1 + jsSizeF fs

/-- Size of an array payload. -/
def jsSizeL : List JSVal → Nat
  | [] => 1
  | x :: xs => 1 + jsSize x + jsSizeL xs

/-- Size of an object's field list. -/
def jsSizeF : List (String × JSVal) → Nat
  | [] => 1
  | (_, v) :: rest => 2 + jsSize v + jsSizeF rest

end

/-- JavaScript truthiness. -/
def truthy : JSVal → Bool
  | .null => false
  | .undef => false
  | .bool b => b
  | .num n => n ≠ 0
  | .str s => s ≠ ""
  | .arr _ => true
  | .obj _ => true

/-- First field of an object literal with the given key. -/
def findField : List (String × JSVal) → String → Option JSVal
  | [], _ => none
  | (k, v) :: rest, key => if k = key then some v else findField rest key

/-- JavaScript property read `v[k]`: throws on `null`/`undefined`, yields
`undefined` on a missing field or a primitive receiver. -/
def getProp : JSVal → String → Except String JSVal
  | .null, _ => .error "TypeError"
  | .undef, _ => .error "TypeError"
  | .obj fields, k => .ok ((findField fields k).getD .undef)
  | _, _ => .ok (.undef)

/-- `a || b`. -/
def jsOr (a b : JSVal) : JSVal := if truthy a then a else b

/-- `v === 'lit'` for a string literal. -/
def jsStrEq (v : JSVal) (s : String) : Bool :=
  match v with
  | .str t => t = s
  | _ => false

/-- `for (const x of v)`: arrays and strings are iterable, everything else
throws. -/
def asIterable : JSVal → Except String (List JSVal)
  | .arr xs => .ok xs
  | .str s => .ok (s.toList.map (fun c => .str (String.mk [c])))
  | _ => .error "TypeError"

/-- Drop `<…>` tag spans.  The source's `stripHtml` parses the markup with a
detached DOM element and reads `textContent`; that parsing is modelled as
tag removal (the spec's `stripMarkup` abstraction).  Entity decoding is not
modelled; the concrete inputs of the theorems below are markup-free. -/
def rmTags (inTag : Bool) : List Char → List Char
  | [] => []
  | c :: rest =>
    if inTag then
      if c = '>' then rmTags false rest else rmTags true rest
    else
      if c = '<' then rmTags true rest else c :: rmTags false rest

/-- Source `stripHtml` (lines 10-15): text content of the markup with
whitespace runs collapsed to single spaces and the ends trimmed. -/
def stripHtml (s : String) : String := String.mk (trimL (collapseWs (rmTags false s.toList)))

/-- `stripHtml` applied to a dynamic value (`typeof html !== 'string'`
yields the empty string). -/
def stripHtmlVal : JSVal → String
  | .str s => stripHtml s
  | _ => ""

/-- The `answers` loop of `walk` (line 166): for each answer choice with a
truthy title, push an `answer` entry carrying its `correct` flag. -/
def walkAnswers (lessonTitle : String) (lessonId blockId : JSVal) :
    List JSVal → Except String (List Entry)
  | [] => .ok []
  | a :: rest =>
    getProp a "title" >>= fun t =>
    (if truthy t then
        getProp a "correct" >>= fun c =>
        .ok [{ text := stripHtmlVal t, lessonId := lessonId, blockId := blockId,
               lessonTitle := lessonTitle, type := "answer", correct := c : Entry }]
      else .ok []) >>= fun es =>
    walkAnswers lessonTitle lessonId blockId rest >>= fun more =>
    .ok (es ++ more)

/-- A pending traversal obligation of `walk`: one node, the elements of an
`items` array, or the elements of a `slides` array. -/
inductive WTask where
  | val (o : JSVal)
  | elems (xs : List JSVal)
  | slides (xs : List JSVal)

/-- The recursive `walk` of `extractFromBlock` (lines 160-169), fuel-driven.
For a truthy node it pushes `heading`/`paragraph`/`caption` entries, a
`question` entry for a quiz-like titled node, the `answer` entries, then
recurses into an `items` array and a `slides` array (capturing each slide's
`description` first). -/
def walkF (lessonTitle : String) (lessonId blockId : JSVal) :
    Nat → WTask → Except String (List Entry)
  | 0, _ => .error "OutOfFuel"
  | fuel + 1, .val o =>
    if !truthy o then .ok []
    else
      getProp o "heading" >>= fun heading =>
      getProp o "paragraph" >>= fun paragraph =>
      getProp o "caption" >>= fun caption =>
      getProp o "title" >>= fun title =>
      getProp o "answers" >>= fun answers =>
      getProp o "type" >>= fun typ =>
      (if truthy answers then
          asIterable answers >>= fun as =>
          walkAnswers lessonTitle lessonId blockId as
        else .ok []) >>= fun e5 =>
      getProp o "items" >>= fun items =>
      (match items with
       | .arr xs => walkF lessonTitle lessonId blockId fuel (.elems xs)
       | _ => .ok []) >>= fun e6 =>
      getProp o "slides" >>= fun slides =>
      (match slides with
       | .arr xs => walkF lessonTitle lessonId blockId fuel (.slides xs)
       | _ => .ok []) >>= fun e7 =>
      .ok ((if truthy heading then
              [{ text := stripHtmlVal heading, lessonId := lessonId, blockId := blockId,
                 lessonTitle := lessonTitle, type := "heading" : Entry }]
            else []) ++
           (if truthy paragraph then
              [{ text := stripHtmlVal paragraph, lessonId := lessonId, blockId := blockId,
                 lessonTitle := lessonTitle, type := "paragraph" : Entry }]
            else []) ++
           (if truthy caption then
              [{ text := stripHtmlVal caption, lessonId := lessonId, blockId := blockId,
                 lessonTitle := lessonTitle, type := "caption" : Entry }]
            else []) ++
           (if truthy title &&
                (truthy answers || jsStrEq typ "knowledgeCheck" ||
                 jsStrEq typ "MULTIPLE_RESPONSE") then
              [{ text := stripHtmlVal title, lessonId := lessonId, blockId := blockId,
                 lessonTitle := lessonTitle, type := "question" : Entry }]
            else []) ++ e5 ++ e6 ++ e7)
  | _ + 1, .elems [] => .ok []
  | fuel + 1, .elems (x :: xs) =>
    walkF lessonTitle lessonId blockId fuel (.val x) >>= fun a =>
    walkF lessonTitle lessonId blockId fuel (.elems xs) >>= fun b =>
    .ok (a ++ b)
  | _ + 1, .slides [] => .ok []
  | fuel + 1, .slides (s :: xs) =>
    getProp s "description" >>= fun d =>
    walkF lessonTitle lessonId blockId fuel (.val s) >>= fun a =>
    walkF lessonTitle lessonId blockId fuel (.slides xs) >>= fun b =>
    .ok ((if truthy d then
            [{ text := stripHtmlVal d, lessonId := lessonId, blockId := blockId,
               lessonTitle := lessonTitle, type := "slide" : Entry }]
          else []) ++ a ++ b)

/-- Source `extractFromBlock` (lines 157-171): skip a falsy block or a block
with falsy `items`; otherwise compute the block id and walk each item
(`forEach` on a non-array throws). -/
def extractFromBlock (fuel : Nat) (block : JSVal) (lessonTitle : String)
    (lessonId : JSVal) : Except String (List Entry) :=
  if !truthy block then .ok []
  else
    getProp block "items" >>= fun items =>
    if !truthy items then .ok []
    else
      getProp block "id" >>= fun id0 =>
      match items with
      | .arr xs => walkF lessonTitle lessonId (jsOr id0 (.str "")) fuel (.elems xs)
      | _ => .error "TypeError"

/-- The scan of `getBlockTitle` over the block's items (lines 175-179). -/
def getBlockTitleGo : List JSVal → Except String String
  | [] => .ok "Section"
  | it :: rest =>
    getProp it "heading" >>= fun h =>
    if truthy h then
      .ok (if ((stripHtmlVal h).toList.take 80).isEmpty then "Section"
           else String.mk ((stripHtmlVal h).toList.take 80))
    else
      getProp it "paragraph" >>= fun p =>
      if truthy p then
        .ok (if ((stripHtmlVal p).toList.take 60).isEmpty then "Section"
             else String.mk ((stripHtmlVal p).toList.take 60))
      else
        getProp it "title" >>= fun ti =>
        if truthy ti then
          .ok (if ((stripHtmlVal ti).toList.take 60).isEmpty then "Section"
               else String.mk ((stripHtmlVal ti).toList.take 60))
        else getBlockTitleGo rest

/-- Source `getBlockTitle` (lines 173-181). -/
def getBlockTitle (block : JSVal) : Except String String :=
  if !truthy block then .ok "Section"
  else
    getProp block "items" >>= fun items =>
    if !truthy items then .ok "Section"
    else
      asIterable items >>= fun xs =>
      getBlockTitleGo xs

/-- The per-block body of `buildFromCourse`'s `map` (lines 190-193):
extract the block's entries, then build its TOC reference. -/
def buildBlocks (fuel : Nat) (lessonTitle : String) (lessonId : JSVal) :
    List JSVal → Except String (List Entry × List TocBlock)
  | [] => .ok ([], [])
  | bl :: rest =>
    extractFromBlock fuel bl lessonTitle lessonId >>= fun es =>
    getProp bl "id" >>= fun id0 =>
    getBlockTitle bl >>= fun t =>
    buildBlocks fuel lessonTitle lessonId rest >>= fun r =>
    .ok (es ++ r.1, ({ blockId := jsOr id0 (.str ""), title := t } : TocBlock) :: r.2)

/-- The per-lesson body of `buildFromCourse` (lines 187-194). -/
def buildLesson (fuel : Nat) (les : JSVal) : Except String (List Entry × TocEntry) :=
  getProp les "id" >>= fun id0 =>
  getProp les "title" >>= fun title0 =>
  getProp les "items" >>= fun items0 =>
  let lessonId := jsOr id0 (.str "")
  let lessonTitle := if stripHtmlVal title0 = "" then "Lesson" else stripHtmlVal title0
  match jsOr items0 (.arr []) with
  | .arr bls =>
    buildBlocks fuel lessonTitle lessonId bls >>= fun r =>
    .ok (r.1, { lessonId := lessonId, lessonTitle := lessonTitle, blocks := r.2 })
  | _ => .error "TypeError"

/-- Fold of `buildLesson` over the lessons array. -/
def buildLessons (fuel : Nat) : List JSVal → Except String (List Entry × List TocEntry)
  | [] => .ok ([], [])
  | les :: rest =>
    buildLesson fuel les >>= fun r1 =>
    buildLessons fuel rest >>= fun r2 =>
    .ok (r1.1 ++ r2.1, r1.2 :: r2.2)

/-- Source `buildFromCourse(course)` (lines 183-196), producing the fresh
`courseIndex` and `courseToc`. -/
def buildFromCourse (course : JSVal) : Except String (List Entry × List TocEntry) :=
  (if truthy course then getProp course "lessons" else .ok course) >>= fun lv =>
  match jsOr lv (.arr []) with
  | .arr ls => buildLessons (jsSize course + 1) ls
  | _ => .error "TypeError"

/-! ## Predicates for the indexer claims -/

/-- Adjacent characters are never both whitespace. -/
def noDbl : List Char → Bool
  | a :: b :: r => !(isSpaceChar a && isSpaceChar b) && noDbl (b :: r)
  | _ => true

/-- Every whitespace character is a single interior space `' '` with a
non-whitespace successor. -/
def wsOkAux : List Char → Bool
  | [] => true
  | c :: rest =>
    if isSpaceChar c then
      (c = ' ') &&
      (match rest with
       | [] => false
       | d :: _ => !isSpaceChar d) && wsOkAux rest
    else wsOkAux rest

/-- Whitespace-normalized text: no leading or trailing whitespace, no two
adjacent whitespace characters, and every whitespace character is `' '`. -/
def isNormT : List Char → Bool
  | [] => true
  | c :: rest => !isSpaceChar c && wsOkAux (c :: rest)

/-- A node value on which the recursive `walk` cannot raise: its `answers`
field, when truthy, is an array of non-null values or a string; the
elements of its `items` array are again safe; and the elements of its
`slides` array are non-null and safe. -/
inductive SafeVal : JSVal → Prop where
  | null : SafeVal .null
  | undef : SafeVal .undef
  | bool (b : Bool) : SafeVal (.bool b)
  | num (n : Int) : SafeVal (.num n)
  | str (s : String) : SafeVal (.str s)
  | arr (xs : List JSVal) : SafeVal (.arr xs)
  | obj (fields : List (String × JSVal))
      (hans : ∀ a, findField fields "answers" = some a → truthy a = true →
        (∃ xs, a = .arr xs ∧ ∀ x ∈ xs, x ≠ .null ∧ x ≠ .undef) ∨ (∃ s, a = .str s))
      (hitems : ∀ xs, findField fields "items" = some (.arr xs) → ∀ x ∈ xs, SafeVal x)
      (hslidesn : ∀ xs, findField fields "slides" = some (.arr xs) →
        ∀ x ∈ xs, x ≠ .null ∧ x ≠ .undef)
      (hslides : ∀ xs, findField fields "slides" = some (.arr xs) →
        ∀ x ∈ xs, SafeVal x) :
      SafeVal (.obj fields)

/-- The safety requirement of one pending `walk` obligation. -/
def SafeTask : WTask → Prop
  | .val o => SafeVal o
  | .elems xs => ∀ x ∈ xs, SafeVal x
  | .slides xs => ∀ x ∈ xs, (x ≠ .null ∧ x ≠ .undef) ∧ SafeVal x

/-- The size of one pending `walk` obligation, for fuel accounting. -/
def taskSize : WTask → Nat
  | .val o => jsSize o
  | .elems xs => jsSizeL xs
  | .slides xs => jsSizeL xs

/-- A block on which `extractFromBlock` and `getBlockTitle` cannot raise:
non-null, and its `items` field, when truthy, is an array of safe non-null
nodes. -/
def SafeBlock (bl : JSVal) : Prop :=
  bl ≠ .null ∧ bl ≠ .undef ∧
  (∀ fields v, bl = .obj fields → findField fields "items" = some v → truthy v = true →
    ∃ xs, v = .arr xs ∧ ∀ x ∈ xs, (x ≠ .null ∧ x ≠ .undef) ∧ SafeVal x)

/-- A lesson on which `buildFromCourse`'s per-lesson body cannot raise. -/
def SafeLesson (les : JSVal) : Prop :=
  les ≠ .null ∧ les ≠ .undef ∧
  (∀ fields v, les = .obj fields → findField fields "items" = some v → truthy v = true →
    ∃ bls, v = .arr bls ∧ ∀ bl ∈ bls, SafeBlock bl)

/-- The lessons array `(course && course.lessons) || []` resolves to, when
it is an array. -/
def lessonsOf (course : JSVal) : Option (List JSVal) :=
  let lv := if truthy course then
      (match course with
       | .obj fields => (findField fields "lessons").getD .undef
       | _ => .undef)
    else course
  match jsOr lv (.arr []) with
  | .arr ls => some ls
  | _ => none

/-- A course tree on which `buildFromCourse` cannot raise. -/
def SafeCourse (course : JSVal) : Prop :=
  ∃ ls, lessonsOf course = some ls ∧ ∀ les ∈ ls, SafeLesson les

/-! ## The display layer's bullet rendering

The UI (source line 398) renders a `QueryResult` message with
`message.replace(/ • /g, '\n• ')`, putting each bullet on its own visual
line. -/

/-- Matcher for `replace(/ • /g, '\n• ')`. -/
def tryDisplayBullet (l : List Char) : Option (Nat × List Char) :=
  if lpre " • ".toList l then some (3, "\n• ".toList) else none

/-- The displayed text of an answer message (source line 398). -/
def displayText (m : String) : String := String.mk (gsub tryDisplayBullet m.toList)

/-! ## Concrete fixtures used by the claims -/

/-- The objectives paragraph of C3. -/
def objectivesEntry : Entry :=
  { text := "At the end of the course, you will: Recognise inclusive terms. Apply plain language. Use short sentences.",
    type := "paragraph" }

/-- The two-sentence voice paragraph of C4. -/
def voiceEntry : Entry :=
  { text := "Active voice makes sentences direct and lively. Passive voice hides who does the action.",
    type := "paragraph" }

/-- A plain-language paragraph with no occurrence of "inclusive". -/
def plainEntry : Entry :=
  { text := "Plain language means clear writing.", type := "paragraph" }

/-- An objectives paragraph with no occurrence of "inclusive". -/
def inclObjEntry : Entry :=
  { text := "At the end of the course, you will: Recognise plain terms.", type := "paragraph" }

/-- The C8 paragraph text (a known concatenation artifact). -/
def kpText : String := "Short SentencesActive VoiceFamiliar Words"

/-- The C8 course tree: a lesson titled "Key Principles" holding one block
with one paragraph. -/
def kpTree : JSVal :=
  .obj [("lessons", .arr [.obj [("id", .str "l1"), ("title", .str "Key Principles"),
    ("items", .arr [.obj [("id", .str "b1"),
      ("items", .arr [.obj [("paragraph", .str kpText)]])]])]])]

/-- The entry the indexer extracts from `kpTree`. -/
def kpEntry : Entry :=
  { text := kpText, lessonId := .str "l1", blockId := .str "b1",
    lessonTitle := "Key Principles", type := "paragraph" }

/-- The TOC the indexer builds from `kpTree`. -/
def kpToc : List TocEntry :=
  [{ lessonId := .str "l1", lessonTitle := "Key Principles",
     blocks := [{ blockId := .str "b1", title := kpText }] }]

/-- The answer message produced for C8's scenario. -/
def kpMsg : String :=
  "According to the course: Short Sentences • Active Voice • Familiar Words."

/-- The C9 course tree: a heading whose raw value is the truthy string
`" "`, which strips to the empty string. -/
def spaceHeadingTree : JSVal :=
  .obj [("lessons", .arr [.obj [("title", .str "L"),
    ("items", .arr [.obj [("items", .arr [.obj [("heading", .str " ")]])]])]])]

/-- The C10 course tree: a `null` element inside the lessons array. -/
def nullLessonTree : JSVal := .obj [("lessons", .arr [.null])]

/-- A C10 variant: a `null` element inside an `answers` array. -/
def nullAnswerTree : JSVal :=
  .obj [("lessons", .arr [.obj [("items", .arr [.obj [("items",
    .arr [.obj [("answers", .arr [.null])]])]])]])]

/-! ## Theorems for the claims -/

lemma tokContrib_nonneg (words : List (List Char)) (q : List Char) :
    0 ≤ tokContrib words q := by
  unfold tokContrib
  split
  · norm_num
  · split <;> norm_num

lemma tokContrib_le_one (words : List (List Char)) (q : List Char) :
    tokContrib words q ≤ 1 := by
  unfold tokContrib
  split
  · norm_num
  · split <;> norm_num

lemma scoreMatch_foldl_eq_sum (words : List (List Char)) (qs : List (List Char)) (a : ℚ) :
    qs.foldl (fun acc q => acc + tokContrib words q) a
      = a + (qs.map (tokContrib words)).sum := by
  induction qs generalizing a with
  | nil => simp
  | cons q qs ih => simp [ih, add_assoc]

lemma scoreMatch_sum_nonneg (words : List (List Char)) (qs : List (List Char)) :
    0 ≤ (qs.map (tokContrib words)).sum := by
  induction qs with
  | nil => simp
  | cons q qs ih =>
    simp only [List.map_cons, List.sum_cons]
    have := tokContrib_nonneg words q
    linarith

lemma scoreMatch_sum_le_len (words : List (List Char)) (qs : List (List Char)) :
    (qs.map (tokContrib words)).sum ≤ (qs.length : ℚ) := by
  induction qs with
  | nil => simp
  | cons q qs ih =>
    simp only [List.map_cons, List.sum_cons, List.length_cons]
    have := tokContrib_le_one words q
    push_cast
    linarith

/-- C1.  `scoreMatch` always lies in the closed interval `[0, 1]`, and on an
empty query-token sequence it is exactly `0`. -/
theorem scoreMatch_mem_unit_interval (qs : List (List Char)) (text : List Char) :
    (0 ≤ scoreMatchL qs text ∧ scoreMatchL qs text ≤ 1) ∧ scoreMatchL [] text = 0 := by
  constructor
  · unfold scoreMatchL
    simp only [scoreMatch_foldl_eq_sum, zero_add]
    by_cases h : qs.length = 0
    · simp [h]
    · have hlen : 0 < (qs.length : ℚ) := by
        have : 0 < qs.length := Nat.pos_of_ne_zero h
        exact_mod_cast this
      rw [if_pos h]
      constructor
      · exact div_nonneg (scoreMatch_sum_nonneg _ _) (le_of_lt hlen)
      · rw [div_le_one hlen]
        exact scoreMatch_sum_le_len _ _
  · unfold scoreMatchL
    simp

/-- C2.  In `scoreMatch`, the total is the sum of per-token contributions
divided by the number of query tokens, and a query token absent from the
candidate's token set contributes exactly `0.5` when some candidate token
of length at least 3 contains it as a substring, and `0` otherwise (so a
query token that merely contains a shorter candidate token, or is contained
only in candidate tokens shorter than 3 characters, earns nothing). -/
theorem scoreMatch_partial_credit :
    (∀ (qs : List (List Char)) (text : List Char), qs ≠ [] →
      scoreMatchL qs text
        = ((qs.map (tokContrib (tokenizeL text))).sum) / (qs.length : ℚ)) ∧
    (∀ (q : List Char) (words : List (List Char)), q ∉ words →
      tokContrib words q
        = if ∃ w ∈ words, 3 ≤ w.length ∧ hasSub q w = true then 1/2 else 0) := by
  constructor
  · intro qs text hqs
    unfold scoreMatchL
    simp only [scoreMatch_foldl_eq_sum, zero_add]
    rw [if_pos]
    simpa using hqs
  · intro q words hq
    unfold tokContrib
    rw [if_neg hq]
    by_cases h : ∃ w ∈ words, 3 ≤ w.length ∧ hasSub q w = true
    · rw [if_pos h, if_pos]
      rw [List.any_eq_true]
      obtain ⟨w, hw, hlen, hsub⟩ := h
      exact ⟨w, hw, by simp [hlen, hsub]⟩
    · rw [if_neg h, if_neg]
      rw [List.any_eq_true]
      rintro ⟨w, hw, hcond⟩
      apply h
      simp only [Bool.and_eq_true, decide_eq_true_eq] at hcond
      exact ⟨w, hw, hcond.1, hcond.2⟩

/-- Witness for C2: the query token "objectives" against candidate text
"object" (reverse containment: the query token contains the candidate
token, which earns nothing), and the query token "b" against "ab" (the
candidate token contains the query token but is shorter than 3 characters,
which also earns nothing). -/
theorem scoreMatch_partial_credit_witness :
    ("objectives".toList ∉ tokenizeL "object".toList ∧
      tokContrib (tokenizeL "object".toList) "objectives".toList = 0) ∧
    ("b".toList ∉ tokenizeL "ab".toList ∧
      tokContrib (tokenizeL "ab".toList) "b".toList = 0) ∧
    scoreMatchL ["objectives".toList] "object".toList
      = ((["objectives".toList].map (tokContrib (tokenizeL "object".toList))).sum) / 1 := by
  refine ⟨⟨by decide, ?_⟩, ⟨by decide, ?_⟩, ?_⟩
  · rw [scoreMatch_partial_credit.2 _ _ (by decide)]
    rw [if_neg]
    decide
  · rw [scoreMatch_partial_credit.2 _ _ (by decide)]
    rw [if_neg]
    decide
  · have h := scoreMatch_partial_credit.1 ["objectives".toList] "object".toList (by simp)
    simpa using h


/-- C7.  With an empty index, `answerFromCourse` returns `ok:false` with the
fixed still-loading message, for every query and TOC, before any
tokenization, classification, or scoring. -/
theorem answerFromCourse_empty_index (toc : List TocEntry) (q : String) :
    answerFromCourse [] toc q = ⟨false, stillLoadingMsg⟩ := rfl

/-- C3.  The query "objectives" against the course-objectives paragraph
yields `ok:true` with exactly three bulleted clauses, each starting with a
capital letter after the bullet and ending in terminal punctuation; and
whenever the objectives regex finds clauses, only the first three in source
order are kept (shown in general, and on a four-clause text). -/
theorem answerFromCourse_objectives :
    (answerFromCourse [objectivesEntry] [] "objectives" =
      ⟨true, "According to the course, the objectives are:\n• Recognise inclusive terms.\n• Apply plain language.\n• Use short sentences."⟩) ∧
    ((splitChar '\n' "• Recognise inclusive terms.\n• Apply plain language.\n• Use short sentences.".toList).length = 3 ∧
      (splitChar '\n' "• Recognise inclusive terms.\n• Apply plain language.\n• Use short sentences.".toList).all
        (fun l => lpre "• ".toList l && endsWithTerm l && isUpperChar (l.getD 2 ' ')) = true) ∧
    (∀ t : List Char, objMatches (simplifyPre t) ≠ [] →
      simplifyForAnswerL t "objectives"
        = joinWith ['\n'] (((objMatches (simplifyPre t)).take 3).map
            (fun s => '•' :: ' ' :: cleanTextL s))) ∧
    ((objMatches (simplifyPre "Recognise a thing. Apply b thing. Use c thing. Recognise d thing.".toList)).length = 4 ∧
      simplifyForAnswer "Recognise a thing. Apply b thing. Use c thing. Recognise d thing." "objectives"
        = "• Recognise a thing.\n• Apply b thing.\n• Use c thing.") := by
  refine ⟨by with_unfolding_all rfl, ⟨by decide, by decide⟩, ?_, ⟨?_, ?_⟩⟩
  · intro t h
    have ht : t ≠ [] := by
      rintro rfl
      exact h rfl
    have h1 : 1 ≤ (objMatches (simplifyPre t)).length :=
      Nat.one_le_iff_ne_zero.mpr (by simpa [List.length_eq_zero] using h)
    simp only [simplifyForAnswerL, if_neg ht, if_pos rfl, if_pos h1]
    simp
  · with_unfolding_all decide
  · with_unfolding_all rfl

/-- Witness for C3: the general first-three clause selection applied to the
four-clause text. -/
theorem answerFromCourse_objectives_witness :
    objMatches (simplifyPre "Recognise a thing. Apply b thing. Use c thing. Recognise d thing.".toList) ≠ [] ∧
    simplifyForAnswerL "Recognise a thing. Apply b thing. Use c thing. Recognise d thing.".toList "objectives"
      = joinWith ['\n'] (((objMatches (simplifyPre "Recognise a thing. Apply b thing. Use c thing. Recognise d thing.".toList)).take 3).map
          (fun s => '•' :: ' ' :: cleanTextL s)) :=
  ⟨by with_unfolding_all decide,
   answerFromCourse_objectives.2.2.1 _ (by with_unfolding_all decide)⟩

/-- C4.  When the query names passive voice and not active voice the focus
term is `passive` (symmetrically for active), when it names both no focus
filter is applied; the passive focus filter keeps only sentences mentioning
passive voice whenever one exists, and symmetrically the active focus
filter keeps only sentences mentioning active voice whenever one exists;
and the concrete query "what is passive voice" against an entry holding
one active-voice sentence and one passive-voice sentence answers with the
passive-voice sentence only. -/
theorem answerFromCourse_voice_focus :
    (∀ q : String,
      containsPatB (wsPat ["passive", "voice"]) (lowerL q.toList) = true →
      containsPatB (wsPat ["active", "voice"]) (lowerL q.toList) = false →
      focusTermOf q = some "passive") ∧
    (∀ q : String,
      containsPatB (wsPat ["active", "voice"]) (lowerL q.toList) = true →
      containsPatB (wsPat ["passive", "voice"]) (lowerL q.toList) = false →
      focusTermOf q = some "active") ∧
    (∀ q : String,
      containsPatB (wsPat ["passive", "voice"]) (lowerL q.toList) = true →
      containsPatB (wsPat ["active", "voice"]) (lowerL q.toList) = true →
      focusTermOf q = none) ∧
    (∀ ss : List (List Char), (∃ s ∈ ss, containsCI "passive voice".toList s = true) →
      ∀ s ∈ focusSentences (some "passive") ss, containsCI "passive voice".toList s = true) ∧
    (∀ ss : List (List Char), (∃ s ∈ ss, containsCI "active voice".toList s = true) →
      ∀ s ∈ focusSentences (some "active") ss, containsCI "active voice".toList s = true) ∧
    (∀ ss : List (List Char), focusSentences none ss = ss) ∧
    (answerFromCourse [voiceEntry] [] "what is passive voice" =
      ⟨true, "According to the course: Passive voice hides who does the action."⟩) ∧
    (containsCI "active voice".toList
      (answerFromCourse [voiceEntry] [] "what is passive voice").message.toList = false) := by
  refine ⟨?_, ?_, ?_, ?_, ?_, ?_, by with_unfolding_all rfl, by with_unfolding_all decide⟩
  · intro q h1 h2
    simp only [focusTermOf, h1, h2, Bool.not_false, Bool.and_self, if_pos]
  · intro q h1 h2
    simp only [focusTermOf, h1, h2, Bool.not_false, Bool.not_true, Bool.and_true,
      Bool.and_false, Bool.false_and, Bool.and_self, if_false]
    simp
  · intro q h1 h2
    simp only [focusTermOf, h1, h2, Bool.not_true, Bool.and_false]
    simp
  · intro ss hex s hs
    obtain ⟨s0, hs0, hp0⟩ := hex
    have hmem : s0 ∈ ss.filter (containsCI "passive voice".toList) :=
      List.mem_filter.mpr ⟨hs0, hp0⟩
    have hne : ss.filter (containsCI "passive voice".toList) ≠ [] :=
      List.ne_nil_of_mem hmem
    simp only [focusSentences, if_pos rfl, if_pos hne] at hs
    exact (List.mem_filter.mp hs).2
  · intro ss hex s hs
    obtain ⟨s0, hs0, hp0⟩ := hex
    have hmem : s0 ∈ ss.filter (containsCI "active voice".toList) :=
      List.mem_filter.mpr ⟨hs0, hp0⟩
    have hne : ss.filter (containsCI "active voice".toList) ≠ [] :=
      List.ne_nil_of_mem hmem
    have hnp : ¬(some "active" = some "passive") := by decide
    simp only [focusSentences, if_neg hnp, if_pos rfl, if_pos hne] at hs
    exact (List.mem_filter.mp hs).2
  · intro ss
    rfl

/-- Witness for C4: the concrete query mentions passive voice only and gets
focus term `passive`; the query "use active voice" gets focus term
`active`; a query mentioning both gets no focus term; the passive filter
keeps the passive sentence of a two-sentence pool, and the active filter
keeps the active sentence of the same pool. -/
theorem answerFromCourse_voice_focus_witness :
    focusTermOf "what is passive voice" = some "passive" ∧
    focusTermOf "use active voice" = some "active" ∧
    focusTermOf "active voice and passive voice" = none ∧
    containsCI "passive voice".toList "Passive voice hides the actor.".toList = true ∧
    containsCI "active voice".toList "Active voice is direct.".toList = true :=
  ⟨answerFromCourse_voice_focus.1 _ (by decide) (by decide),
   answerFromCourse_voice_focus.2.1 _ (by decide) (by decide),
   answerFromCourse_voice_focus.2.2.1 _ (by decide) (by decide),
   answerFromCourse_voice_focus.2.2.2.1
     ["Active voice is direct.".toList, "Passive voice hides the actor.".toList]
     ⟨"Passive voice hides the actor.".toList, by decide, by decide⟩
     "Passive voice hides the actor.".toList (by decide),
   answerFromCourse_voice_focus.2.2.2.2.1
     ["Active voice is direct.".toList, "Passive voice hides the actor.".toList]
     ⟨"Active voice is direct.".toList, by decide, by decide⟩
     "Active voice is direct.".toList (by decide)⟩

lemma splitWsAux_ne_nil_of_acc (m : List Char) (acc : List Char) (h : acc ≠ []) :
    splitWsAux acc m ≠ [] := by
  induction m generalizing acc with
  | nil => simp [splitWsAux, h]
  | cons c cs ih =>
    simp only [splitWsAux]
    cases hsp : isSpaceChar c
    · simp only [Bool.false_eq_true, if_false]
      exact ih (c :: acc) (List.cons_ne_nil _ _)
    · simp only [if_true, if_neg h]
      exact List.cons_ne_nil _ _

lemma splitWsAux_ne_nil (m : List Char) (c : Char) (hc : c ∈ m)
    (hs : isSpaceChar c = false) (acc : List Char) : splitWsAux acc m ≠ [] := by
  induction m generalizing acc with
  | nil => cases hc
  | cons c0 cs ih =>
    simp only [splitWsAux]
    split
    · rcases List.mem_cons.mp hc with rfl | hmem
      · rename_i hsp
        rw [hs] at hsp
        cases hsp
      · split
        · exact ih hmem []
        · exact List.cons_ne_nil _ _
    · exact splitWsAux_ne_nil_of_acc cs (c0 :: acc) (List.cons_ne_nil _ _)

lemma lpre_head_mem {a : Char} {as l : List Char} (h : lpre (a :: as) l = true) :
    a ∈ l := by
  cases l with
  | nil => simp [lpre] at h
  | cons b bs =>
    simp only [lpre, Bool.and_eq_true, decide_eq_true_eq] at h
    rw [h.1]
    exact List.mem_cons_self b bs

lemma containsPatB_lit_drop {s l : List Char} (h : containsPatB [.lit s] l = true) :
    ∃ i, lpre s (l.drop i) = true := by
  rw [containsPatB, List.any_eq_true] at h
  obtain ⟨i, _, hcond⟩ := h
  rw [Bool.and_eq_true] at hcond
  refine ⟨i, ?_⟩
  rcases hp : lpre s (l.drop i) with _ | _
  · have := hcond.2
    simp only [patLen, hp, Bool.false_eq_true, if_false] at this
  · rfl

/-- A query containing the bounded word "inclusive" has a nonempty
tokenization (the letter `i` survives the punctuation replacement). -/
lemma tokenize_ne_nil_of_askInclusive (q : String) (h : askInclusiveQ q = true) :
    tokenize q ≠ [] := by
  obtain ⟨i, hi⟩ := containsPatB_lit_drop (s := "inclusive".toList) h
  have hmem : ('i' : Char) ∈ lowerL q.toList :=
    List.drop_subset i _ (lpre_head_mem hi)
  have hmap : ('i' : Char) ∈
      (lowerL q.toList).map (fun c => if isWordChar c || isSpaceChar c then c else ' ') := by
    have := List.mem_map_of_mem
      (fun c => if isWordChar c || isSpaceChar c then c else ' ') hmem
    simpa using this
  exact splitWsAux_ne_nil _ _ hmap (by decide) []

/-- C6 amended.  For a non-empty index in which no entry's text contains
"inclusive", a query containing the word "inclusive" that does not take the
objectives special case returns the fixed inclusive-specific not-found
message, without falling through to general scoring. -/
theorem inclusive_missing_message (index : List Entry) (toc : List TocEntry) (q : String)
    (h1 : index ≠ [])
    (h2 : askInclusiveQ q = true)
    (h3 : ∀ e ∈ index, inclusiveText e = false)
    (h4 : objGate index q = none) :
    answerFromCourse index toc q = ⟨false, inclusiveMissMsg⟩ := by
  have htok : tokenize q ≠ [] := tokenize_ne_nil_of_askInclusive q h2
  have hie : index.isEmpty = false := by simpa [List.isEmpty_iff] using h1
  have hfe : (index.filter (typeOkE (wantExamplesQ q))).filter inclusiveText = [] := by
    rw [List.filter_eq_nil_iff]
    intro e he
    have hmem : e ∈ index := (List.mem_filter.mp he).1
    simp [h3 e hmem]
  simp only [answerFromCourse, hie, Bool.false_eq_true, if_false, if_neg htok, h4, h2,
    hfe, List.isEmpty_nil, Bool.and_self, if_true]

/-- Witness for C6's amended claim: the index holding only a plain-language
paragraph and the query "inclusive language meaning". -/
theorem inclusive_missing_message_witness :
    answerFromCourse [plainEntry] [] "inclusive language meaning" =
      ⟨false, inclusiveMissMsg⟩ :=
  inclusive_missing_message [plainEntry] [] "inclusive language meaning"
    (List.cons_ne_nil _ _) (by decide)
    (by
      intro e he
      simp only [List.mem_singleton] at he
      subst he
      decide)
    (by with_unfolding_all rfl)

/-- C5.  Whenever the non-empty index and tokenizable query reach general
scoring (no objectives early answer, no inclusive early answer) and every
candidate in the working pool scores below the minimum threshold after
boosts, the answerer returns `ok:false` with the not-found message whose
suggestions come from the first four TOC entries. -/
theorem below_threshold_not_found (index : List Entry) (toc : List TocEntry) (q : String)
    (h1 : index ≠ [])
    (h2 : tokenize q ≠ [])
    (h3 : objGate index q = none)
    (h4 : ¬(askInclusiveQ q = true ∧
      (index.filter (typeOkE (wantExamplesQ q))).filter inclusiveText = []))
    (h5 : ∀ e ∈ finalPool index q, boostedScore q (tokenize q) e < minScore) :
    answerFromCourse index toc q = ⟨false, noMatchMsg toc⟩ := by
  have hie : index.isEmpty = false := by simpa [List.isEmpty_iff] using h1
  have hscored : ((finalPool index q).map
      (fun e => (e, boostedScore q (tokenize q) e))).filter
        (fun x => decide (minScore ≤ x.2)) = [] := by
    rw [List.filter_eq_nil_iff]
    intro x hmem
    rw [List.mem_map] at hmem
    obtain ⟨e', he', rfl⟩ := hmem
    simpa using not_le.mpr (h5 e' he')
  have hand : (askInclusiveQ q &&
      ((index.filter (typeOkE (wantExamplesQ q))).filter inclusiveText).isEmpty) = false := by
    rcases hai : askInclusiveQ q with _ | _
    · rfl
    · have hne : (index.filter (typeOkE (wantExamplesQ q))).filter inclusiveText ≠ [] :=
        fun he => h4 ⟨hai, he⟩
      have hbe : ((index.filter (typeOkE (wantExamplesQ q))).filter inclusiveText).isEmpty
          = false :=
        Bool.eq_false_iff.mpr (fun hb => hne (List.isEmpty_iff.mp hb))
      rw [hbe]
      rfl
  simp only [answerFromCourse, hie, Bool.false_eq_true, if_false, if_neg h2, h3,
    hand, if_false, hscored, sortDesc]

/-- Witness for C5: a one-paragraph index, a two-lesson TOC and the nonsense
query "xyzabc123"; the not-found message lists the lesson title
suggestions. -/
theorem below_threshold_not_found_witness :
    answerFromCourse [plainEntry] [{ lessonTitle := "Writing Basics" }] "xyzabc123" =
      ⟨false, noMatchMsg [{ lessonTitle := "Writing Basics" }]⟩ ∧
    noMatchMsg [{ lessonTitle := "Writing Basics" }] =
      "I couldn" ++ apoS ++ "t find that in the course. Try: Writing Basics." := by
  constructor
  · refine below_threshold_not_found [plainEntry] _ "xyzabc123"
      (List.cons_ne_nil _ _) (by decide) (by with_unfolding_all rfl) ?_ ?_
    · rintro ⟨hai, -⟩
      have : askInclusiveQ "xyzabc123" = false := by decide
      rw [this] at hai
      cases hai
    · have hfp : finalPool [plainEntry] "xyzabc123" = [plainEntry] := by
        with_unfolding_all rfl
      rw [hfp]
      intro e he
      simp only [List.mem_singleton] at he
      subst he
      with_unfolding_all decide
  · with_unfolding_all rfl

/-- C8 counterexample.  The index built from the Key-Principles tree
answers the query "short sentences familiar words" from the artifact
paragraph with `ok:true`, but the `QueryResult` message contains no newline
at all: the three bullet groups are separated by `" • "` inline, so by the
output contract (each `\n` starts a new visual line) the message itself does
not render as three newline-separated bulleted lines. -/
theorem keyPrinciples_message_no_newline :
    buildFromCourse kpTree = .ok ([kpEntry], kpToc) ∧
    answerFromCourse [kpEntry] kpToc "short sentences familiar words" = ⟨true, kpMsg⟩ ∧
    kpMsg.toList.contains '\n' = false ∧
    hasSub "Short Sentences • Active Voice • Familiar Words".toList kpMsg.toList = true :=
  ⟨by with_unfolding_all rfl, by with_unfolding_all rfl, by decide, by decide⟩

/-- C8 amended.  The answer keeps the three phrases distinct with inline
`" • "` bullet separators (no run-together "SentencesActive" remains), and
the display layer's `replace(/ • /g, '\n• ')` then renders them on three
separate visual lines, the second and third as bulleted lines. -/
theorem keyPrinciples_bullets_inline :
    answerFromCourse [kpEntry] kpToc "short sentences familiar words" = ⟨true, kpMsg⟩ ∧
    hasSub "Short Sentences • Active Voice • Familiar Words".toList kpMsg.toList = true ∧
    hasSub "SentencesActive".toList kpMsg.toList = false ∧
    splitChar '\n' (displayText kpMsg).toList =
      ["According to the course: Short Sentences".toList,
       "• Active Voice".toList, "• Familiar Words.".toList] :=
  ⟨by with_unfolding_all rfl, by decide, by decide, by with_unfolding_all rfl⟩

/-- C6 counterexample.  An index with no entry mentioning "inclusive" and
the query "objectives inclusive" (which contains the word "inclusive"): the
objectives special case runs first and returns `ok:true` with an objectives
answer, not the inclusive-specific not-found message. -/
theorem inclusive_query_objectives_first :
    inclusiveText inclObjEntry = false ∧
    askInclusiveQ "objectives inclusive" = true ∧
    answerFromCourse [inclObjEntry] [] "objectives inclusive" =
      ⟨true, "According to the course, the objectives are:\n• Recognise plain terms."⟩ ∧
    (⟨true, "According to the course, the objectives are:\n• Recognise plain terms."⟩ : QueryResult)
      ≠ ⟨false, inclusiveMissMsg⟩ :=
  ⟨by decide, by decide, by with_unfolding_all rfl, by with_unfolding_all decide⟩

lemma collapseWsAux_allWs (l : List Char) (b : Bool) :
    (collapseWsAux b l).all (fun c => !isSpaceChar c || c = ' ') = true := by
  induction l generalizing b with
  | nil => rfl
  | cons c rest ih =>
    simp only [collapseWsAux]
    split
    · split
      · exact ih true
      · simpa using ih true
    · rename_i hsp
      simp [hsp, ih false]

lemma collapseWsAux_true_head (l : List Char) (c : Char)
    (h : (collapseWsAux true l).head? = some c) : isSpaceChar c = false := by
  induction l with
  | nil => simp [collapseWsAux] at h
  | cons c0 rest ih =>
    simp only [collapseWsAux] at h
    split at h
    · exact ih h
    · rename_i hsp
      simp only [List.head?_cons, Option.some.injEq] at h
      rw [← h]
      simpa using hsp

lemma noDbl_tail {c : Char} {l : List Char} (h : noDbl (c :: l) = true) :
    noDbl l = true := by
  cases l with
  | nil => rfl
  | cons d r =>
    simp only [noDbl, Bool.and_eq_true] at h
    exact h.2

lemma noDbl_cons {c : Char} {X : List Char} (h : noDbl X = true)
    (hh : ∀ d, X.head? = some d → isSpaceChar c = false ∨ isSpaceChar d = false) :
    noDbl (c :: X) = true := by
  cases X with
  | nil => rfl
  | cons d r =>
    simp only [noDbl, Bool.and_eq_true]
    refine ⟨?_, h⟩
    rcases hh d rfl with hd | hd <;> simp [hd]

lemma collapseWsAux_noDbl (l : List Char) (b : Bool) :
    noDbl (collapseWsAux b l) = true := by
  induction l generalizing b with
  | nil => rfl
  | cons c rest ih =>
    simp only [collapseWsAux]
    split
    · split
      · exact ih true
      · refine noDbl_cons (ih true) ?_
        intro d hd
        exact Or.inr (collapseWsAux_true_head rest d hd)
    · rename_i hsp
      refine noDbl_cons (ih false) ?_
      intro d _
      exact Or.inl (by simpa using hsp)

lemma head_dropWhile (p : Char → Bool) (l : List Char) (c : Char)
    (h : (l.dropWhile p).head? = some c) : p c = false := by
  induction l with
  | nil => simp [List.dropWhile] at h
  | cons c0 rest ih =>
    simp only [List.dropWhile] at h
    split at h
    · exact ih h
    · rename_i hp
      simp only [List.head?_cons, Option.some.injEq] at h
      rw [← h]
      simpa using hp

lemma noDbl_dropWhile (p : Char → Bool) (l : List Char) (h : noDbl l = true) :
    noDbl (l.dropWhile p) = true := by
  induction l with
  | nil => rfl
  | cons c rest ih =>
    simp only [List.dropWhile]
    split
    · exact ih (noDbl_tail h)
    · exact h

lemma all_dropWhile (p q : Char → Bool) (l : List Char) (h : l.all q = true) :
    (l.dropWhile p).all q = true := by
  induction l with
  | nil => rfl
  | cons c rest ih =>
    simp only [List.all_cons, Bool.and_eq_true] at h
    simp only [List.dropWhile]
    split
    · exact ih h.2
    · simp [h.1, h.2]

lemma noDbl_append_left (l t : List Char) (h : noDbl (l ++ t) = true) :
    noDbl l = true := by
  induction l with
  | nil => rfl
  | cons a r ih =>
    cases r with
    | nil => rfl
    | cons b r2 =>
      simp only [List.cons_append, noDbl, Bool.and_eq_true] at h ⊢
      exact ⟨h.1, by simpa using ih (by simpa using h.2)⟩

lemma dropTrailWs_isPrefix (l : List Char) : ∃ t, dropTrailWs l ++ t = l := by
  induction l with
  | nil => exact ⟨[], rfl⟩
  | cons c rest ih =>
    obtain ⟨t, ht⟩ := ih
    simp only [dropTrailWs]
    split
    · exact ⟨c :: rest, rfl⟩
    · exact ⟨t, by simp [ht]⟩

lemma dropTrailWs_noDbl (l : List Char) (h : noDbl l = true) :
    noDbl (dropTrailWs l) = true := by
  obtain ⟨t, ht⟩ := dropTrailWs_isPrefix l
  exact noDbl_append_left _ t (by rw [ht]; exact h)

lemma dropTrailWs_all (q : Char → Bool) (l : List Char) (h : l.all q = true) :
    (dropTrailWs l).all q = true := by
  obtain ⟨t, ht⟩ := dropTrailWs_isPrefix l
  rw [← ht] at h
  simp only [List.all_append, Bool.and_eq_true] at h
  exact h.1

lemma dropTrailWs_head (l : List Char) (c : Char)
    (h : (dropTrailWs l).head? = some c) : l.head? = some c := by
  cases l with
  | nil => simp [dropTrailWs] at h
  | cons c0 rest =>
    simp only [dropTrailWs] at h
    split at h
    · simp at h
    · simpa using h

lemma dropTrailWs_last (l : List Char) (c : Char)
    (h : (dropTrailWs l).getLast? = some c) : isSpaceChar c = false := by
  induction l with
  | nil => simp [dropTrailWs] at h
  | cons c0 rest ih =>
    simp only [dropTrailWs] at h
    split at h
    · simp at h
    · rename_i hcond
      cases hr : dropTrailWs rest with
      | nil =>
        rw [hr] at h hcond
        simp only [List.getLast?_singleton, Option.some.injEq] at h
        rw [← h]
        simpa using hcond
      | cons d r2 =>
        rw [hr] at h
        rw [List.getLast?_cons_cons] at h
        rw [← hr] at h
        exact ih h

lemma wsOk_of_parts (l : List Char) (h1 : noDbl l = true)
    (h2 : l.all (fun c => !isSpaceChar c || c = ' ') = true)
    (h3 : ∀ c, l.getLast? = some c → isSpaceChar c = false) :
    wsOkAux l = true := by
  induction l with
  | nil => rfl
  | cons c rest ih =>
    simp only [List.all_cons, Bool.and_eq_true] at h2
    have hrest : wsOkAux rest = true := by
      refine ih (noDbl_tail h1) h2.2 ?_
      intro d hd
      apply h3
      cases rest with
      | nil => simp at hd
      | cons e r2 => rw [List.getLast?_cons_cons]; exact hd
    simp only [wsOkAux]
    split
    · rename_i hsp
      have hc : c = ' ' := by
        have h21 := h2.1
        simp only [Bool.or_eq_true, Bool.not_eq_true', decide_eq_true_eq] at h21
        rcases h21 with h | h
        · rw [hsp] at h; cases h
        · exact h
      cases rest with
      | nil =>
        have := h3 c (by simp)
        rw [hsp] at this
        cases this
      | cons d r2 =>
        have hd : isSpaceChar d = false := by
          simp only [noDbl, Bool.and_eq_true] at h1
          have := h1.1
          rw [hsp] at this
          simpa using this
        simp [hc, hd, hrest]
    · exact hrest

/-- `collapseWs` followed by `trim` always yields whitespace-normalized
text. -/
lemma trim_collapse_norm (l : List Char) : isNormT (trimL (collapseWs l)) = true := by
  have hall : ((collapseWs l).dropWhile (fun c => isSpaceChar c)).all
      (fun c => !isSpaceChar c || c = ' ') = true :=
    all_dropWhile _ _ _ (collapseWsAux_allWs l false)
  have hdbl : noDbl ((collapseWs l).dropWhile (fun c => isSpaceChar c)) = true :=
    noDbl_dropWhile _ _ (collapseWsAux_noDbl l false)
  cases ht : trimL (collapseWs l) with
  | nil => rfl
  | cons c rest =>
    rw [trimL] at ht
    have hhead : isSpaceChar c = false := by
      have h1 : (dropTrailWs ((collapseWs l).dropWhile
          (fun c => isSpaceChar c))).head? = some c := by rw [ht]; rfl
      exact head_dropWhile _ _ _ (dropTrailWs_head _ _ h1)
    have hwsok : wsOkAux (c :: rest) = true := by
      rw [← ht]
      refine wsOk_of_parts _ (dropTrailWs_noDbl _ hdbl) (dropTrailWs_all _ _ hall) ?_
      intro d hd
      exact dropTrailWs_last _ _ hd
    simp only [isNormT, Bool.and_eq_true]
    exact ⟨by simp [hhead], hwsok⟩

lemma mem_collapseWsAux {c : Char} (l : List Char) (b : Bool)
    (h : c ∈ collapseWsAux b l) : c ∈ l ∨ c = ' ' := by
  induction l generalizing b with
  | nil => cases h
  | cons c0 rest ih =>
    simp only [collapseWsAux] at h
    split at h
    · split at h
      · rcases ih true h with h | h
        · exact Or.inl (List.mem_cons_of_mem _ h)
        · exact Or.inr h
      · rcases List.mem_cons.mp h with rfl | h
        · exact Or.inr rfl
        · rcases ih true h with h | h
          · exact Or.inl (List.mem_cons_of_mem _ h)
          · exact Or.inr h
    · rcases List.mem_cons.mp h with rfl | h
      · exact Or.inl (List.mem_cons_self _ _)
      · rcases ih false h with h | h
        · exact Or.inl (List.mem_cons_of_mem _ h)
        · exact Or.inr h

lemma not_mem_rmTags (l : List Char) (b : Bool) : '<' ∉ rmTags b l := by
  induction l generalizing b with
  | nil => simp [rmTags]
  | cons c rest ih =>
    simp only [rmTags]
    split
    · split
      · exact ih false
      · exact ih true
    · split
      · exact ih true
      · rename_i hb hlt
        intro hmem
        rcases List.mem_cons.mp hmem with h | h
        · exact hlt h.symm
        · exact ih false h

/-- The indexer's `stripHtml` always yields whitespace-normalized text with
no `<` character (so never raw markup). -/
lemma stripHtml_norm (s : String) :
    isNormT (stripHtml s).toList = true ∧ '<' ∉ (stripHtml s).toList := by
  constructor
  · exact trim_collapse_norm (rmTags false s.toList)
  · intro h
    have h1 : '<' ∈ (collapseWs (rmTags false s.toList)).dropWhile
        (fun c => isSpaceChar c) := by
      obtain ⟨t, hpre⟩ := dropTrailWs_isPrefix ((collapseWs (rmTags false s.toList)).dropWhile
        (fun c => isSpaceChar c))
      rw [← hpre]
      exact List.mem_append_left _ h
    have h2 : '<' ∈ collapseWs (rmTags false s.toList) :=
      List.dropWhile_subset _ h1
    rcases mem_collapseWsAux _ _ h2 with h3 | h3
    · exact not_mem_rmTags _ _ h3
    · cases h3

/-- The same facts for `stripHtmlVal` on any dynamic value. -/
lemma stripHtmlVal_norm (v : JSVal) :
    isNormT (stripHtmlVal v).toList = true ∧ '<' ∉ (stripHtmlVal v).toList := by
  cases v with
  | str s => exact stripHtml_norm s
  | null => exact ⟨rfl, by simp [stripHtmlVal]⟩
  | undef => exact ⟨rfl, by simp [stripHtmlVal]⟩
  | bool b => exact ⟨rfl, by simp [stripHtmlVal]⟩
  | num n => exact ⟨rfl, by simp [stripHtmlVal]⟩
  | arr xs => exact ⟨rfl, by simp [stripHtmlVal]⟩
  | obj fs => exact ⟨rfl, by simp [stripHtmlVal]⟩

lemma except_bind_ok {α β : Type} {m : Except String α} {k : α → Except String β} {r : β}
    (h : (m >>= k) = .ok r) : ∃ v, m = .ok v ∧ k v = .ok r := by
  cases m with
  | error e => simp [Bind.bind, Except.bind] at h
  | ok v => exact ⟨v, rfl, by simpa [Bind.bind, Except.bind] using h⟩

/-- The property every extracted entry enjoys: its text is the
`stripHtml` of some raw field value. -/
def TextFromStrip (e : Entry) : Prop := ∃ v, e.text = stripHtmlVal v

lemma walkAnswers_textOk (lt : String) (li bi : JSVal) (as : List JSVal)
    (es : List Entry) (h : walkAnswers lt li bi as = .ok es) :
    ∀ e ∈ es, TextFromStrip e := by
  induction as generalizing es with
  | nil =>
    simp only [walkAnswers, Except.ok.injEq] at h
    subst h
    intro e he
    cases he
  | cons a rest ih =>
    simp only [walkAnswers] at h
    obtain ⟨t, ht, h⟩ := except_bind_ok h
    obtain ⟨es1, hes1, h⟩ := except_bind_ok h
    obtain ⟨more, hmore, h⟩ := except_bind_ok h
    simp only [Except.ok.injEq] at h
    subst h
    intro e he
    rcases List.mem_append.mp he with he | he
    · split at hes1
      · obtain ⟨c, _, hes1⟩ := except_bind_ok hes1
        simp only [Except.ok.injEq] at hes1
        subst hes1
        rcases List.mem_singleton.mp he with rfl
        exact ⟨t, rfl⟩
      · simp only [Except.ok.injEq] at hes1
        subst hes1
        cases he
    · exact ih more hmore e he

lemma walkF_textOk (lt : String) (li bi : JSVal) :
    ∀ (fuel : Nat) (task : WTask) (es : List Entry),
      walkF lt li bi fuel task = .ok es → ∀ e ∈ es, TextFromStrip e := by
  intro fuel
  induction fuel with
  | zero =>
    intro task es h
    simp [walkF] at h
  | succ fuel ih =>
    intro task es h
    cases task with
    | val o =>
      rw [walkF] at h
      split at h
      · simp only [Except.ok.injEq] at h
        subst h
        intro e he
        cases he
      · obtain ⟨heading, _, h⟩ := except_bind_ok h
        obtain ⟨paragraph, _, h⟩ := except_bind_ok h
        obtain ⟨caption, _, h⟩ := except_bind_ok h
        obtain ⟨title, _, h⟩ := except_bind_ok h
        obtain ⟨answers, _, h⟩ := except_bind_ok h
        obtain ⟨typ, _, h⟩ := except_bind_ok h
        obtain ⟨e5, he5, h⟩ := except_bind_ok h
        obtain ⟨items, _, h⟩ := except_bind_ok h
        obtain ⟨e6, he6, h⟩ := except_bind_ok h
        obtain ⟨slides, _, h⟩ := except_bind_ok h
        obtain ⟨e7, he7, h⟩ := except_bind_ok h
        simp only [Except.ok.injEq] at h
        subst h
        intro e he
        simp only [List.append_assoc, List.mem_append] at he
        rcases he with he | he | he | he | he | he | he
        · split at he
          · rcases List.mem_singleton.mp he with rfl
            exact ⟨heading, rfl⟩
          · cases he
        · split at he
          · rcases List.mem_singleton.mp he with rfl
            exact ⟨paragraph, rfl⟩
          · cases he
        · split at he
          · rcases List.mem_singleton.mp he with rfl
            exact ⟨caption, rfl⟩
          · cases he
        · split at he
          · rcases List.mem_singleton.mp he with rfl
            exact ⟨title, rfl⟩
          · cases he
        · split at he5
          · obtain ⟨as, _, he5⟩ := except_bind_ok he5
            exact walkAnswers_textOk lt li bi as e5 he5 e he
          · simp only [Except.ok.injEq] at he5
            subst he5
            cases he
        · split at he6
          · exact ih _ e6 he6 e he
          · simp only [Except.ok.injEq] at he6
            subst he6
            cases he
        · split at he7
          · exact ih _ e7 he7 e he
          · simp only [Except.ok.injEq] at he7
            subst he7
            cases he
    | elems xs =>
      cases xs with
      | nil =>
        rw [walkF] at h
        simp only [Except.ok.injEq] at h
        subst h
        intro e he
        cases he
      | cons x rest =>
        rw [walkF] at h
        obtain ⟨a, ha, h⟩ := except_bind_ok h
        obtain ⟨b, hb, h⟩ := except_bind_ok h
        simp only [Except.ok.injEq] at h
        subst h
        intro e he
        rcases List.mem_append.mp he with he | he
        · exact ih _ a ha e he
        · exact ih _ b hb e he
    | slides xs =>
      cases xs with
      | nil =>
        rw [walkF] at h
        simp only [Except.ok.injEq] at h
        subst h
        intro e he
        cases he
      | cons s rest =>
        rw [walkF] at h
        obtain ⟨d, hd, h⟩ := except_bind_ok h
        obtain ⟨a, ha, h⟩ := except_bind_ok h
        obtain ⟨b, hb, h⟩ := except_bind_ok h
        simp only [Except.ok.injEq] at h
        subst h
        intro e he
        simp only [List.append_assoc, List.mem_append] at he
        rcases he with he | he | he
        · split at he
          · rcases List.mem_singleton.mp he with rfl
            exact ⟨d, rfl⟩
          · cases he
        · exact ih _ a ha e he
        · exact ih _ b hb e he

lemma extractFromBlock_textOk (fuel : Nat) (bl : JSVal) (lt : String) (li : JSVal)
    (es : List Entry) (h : extractFromBlock fuel bl lt li = .ok es) :
    ∀ e ∈ es, TextFromStrip e := by
  rw [extractFromBlock] at h
  split at h
  · simp only [Except.ok.injEq] at h
    subst h
    intro e he
    cases he
  · obtain ⟨items, _, h⟩ := except_bind_ok h
    split at h
    · simp only [Except.ok.injEq] at h
      subst h
      intro e he
      cases he
    · obtain ⟨id0, _, h⟩ := except_bind_ok h
      split at h
      · exact walkF_textOk lt li _ fuel _ es h
      · cases h

lemma buildBlocks_textOk (fuel : Nat) (lt : String) (li : JSVal) (bls : List JSVal)
    (r : List Entry × List TocBlock) (h : buildBlocks fuel lt li bls = .ok r) :
    ∀ e ∈ r.1, TextFromStrip e := by
  induction bls generalizing r with
  | nil =>
    simp only [buildBlocks, Except.ok.injEq] at h
    subst h
    intro e he
    cases he
  | cons bl rest ih =>
    simp only [buildBlocks] at h
    obtain ⟨es, hes, h⟩ := except_bind_ok h
    obtain ⟨id0, _, h⟩ := except_bind_ok h
    obtain ⟨t, _, h⟩ := except_bind_ok h
    obtain ⟨r2, hr2, h⟩ := except_bind_ok h
    simp only [Except.ok.injEq] at h
    subst h
    intro e he
    rcases List.mem_append.mp he with he | he
    · exact extractFromBlock_textOk fuel bl lt li es hes e he
    · exact ih r2 hr2 e he

lemma buildLesson_textOk (fuel : Nat) (les : JSVal) (r : List Entry × TocEntry)
    (h : buildLesson fuel les = .ok r) : ∀ e ∈ r.1, TextFromStrip e := by
  rw [buildLesson] at h
  obtain ⟨id0, _, h⟩ := except_bind_ok h
  obtain ⟨title0, _, h⟩ := except_bind_ok h
  obtain ⟨items0, _, h⟩ := except_bind_ok h
  split at h <;> split at h <;>
    first
      | (obtain ⟨rb, hrb, h⟩ := except_bind_ok h
         simp only [Except.ok.injEq] at h
         subst h
         exact buildBlocks_textOk fuel _ _ _ rb hrb)
      | simp at h

lemma buildLessons_textOk (fuel : Nat) (ls : List JSVal)
    (r : List Entry × List TocEntry) (h : buildLessons fuel ls = .ok r) :
    ∀ e ∈ r.1, TextFromStrip e := by
  induction ls generalizing r with
  | nil =>
    simp only [buildLessons, Except.ok.injEq] at h
    subst h
    intro e he
    cases he
  | cons les rest ih =>
    simp only [buildLessons] at h
    obtain ⟨r1, hr1, h⟩ := except_bind_ok h
    obtain ⟨r2, hr2, h⟩ := except_bind_ok h
    simp only [Except.ok.injEq] at h
    subst h
    intro e he
    rcases List.mem_append.mp he with he | he
    · exact buildLesson_textOk fuel les r1 hr1 e he
    · exact ih r2 hr2 e he

/-- C9 amended.  Every entry of any built index carries the `stripHtml` of
some raw field value, and `stripHtml` output is always whitespace-normalized
text containing no `<` (never raw markup); but such an entry's text can be
empty, because entries are pushed whenever the raw field is truthy, even
when it strips to whitespace. -/
theorem index_text_normalized :
    (∀ s : String, isNormT (stripHtml s).toList = true ∧ '<' ∉ (stripHtml s).toList) ∧
    (∀ (course : JSVal) (idx : List Entry) (toc : List TocEntry),
      buildFromCourse course = .ok (idx, toc) →
      ∀ e ∈ idx, isNormT e.text.toList = true ∧ '<' ∉ e.text.toList) := by
  constructor
  · exact stripHtml_norm
  · intro course idx toc h e he
    rw [buildFromCourse] at h
    obtain ⟨lv, _, h⟩ := except_bind_ok h
    split at h
    · have := buildLessons_textOk _ _ (idx, toc) h e he
      obtain ⟨v, hv⟩ := this
      rw [hv]
      exact stripHtmlVal_norm v
    · cases h

/-- Witness for C9's amended claim: applied to the space-heading tree, whose
single entry has the (normalized, markup-free, empty) text `""`. -/
theorem index_text_normalized_witness :
    buildFromCourse spaceHeadingTree =
      .ok ([{ text := "", lessonId := .str "", blockId := .str "", lessonTitle := "L",
              type := "heading" }],
           [{ lessonId := .str "", lessonTitle := "L",
              blocks := [{ blockId := .str "", title := "Section" }] }]) ∧
    isNormT ("" : String).toList = true ∧ '<' ∉ ("" : String).toList := by
  refine ⟨by with_unfolding_all rfl, ?_⟩
  have := index_text_normalized.2 spaceHeadingTree
    [{ text := "", lessonId := .str "", blockId := .str "", lessonTitle := "L",
       type := "heading" }]
    [{ lessonId := .str "", lessonTitle := "L",
       blocks := [{ blockId := .str "", title := "Section" }] }]
    (by with_unfolding_all rfl)
  exact this _ (List.mem_singleton.mpr rfl)

/-- C9 counterexample.  A heading whose raw value is the truthy string
`" "` is pushed: the built index contains an entry whose HTML-stripped,
whitespace-normalized text is the empty string. -/
theorem index_empty_text_entry :
    buildFromCourse spaceHeadingTree =
      .ok ([{ text := "", lessonId := .str "", blockId := .str "", lessonTitle := "L",
              type := "heading" }],
           [{ lessonId := .str "", lessonTitle := "L",
              blocks := [{ blockId := .str "", title := "Section" }] }]) :=
  by with_unfolding_all rfl

lemma except_ok_bind {α β : Type} (v : α) (k : α → Except String β) :
    ((Except.ok v : Except String α) >>= k) = k v := rfl

lemma isOkE_bind {α β : Type} {m : Except String α} {k : α → Except String β}
    (hm : ∃ v, m = .ok v) (hk : ∀ v, m = .ok v → ∃ r, k v = .ok r) :
    ∃ r, (m >>= k) = .ok r := by
  obtain ⟨v, hv⟩ := hm
  obtain ⟨r, hr⟩ := hk v hv
  exact ⟨r, by rw [hv, except_ok_bind]; exact hr⟩

lemma truthy_ne_nullundef {o : JSVal} (h : truthy o = true) :
    o ≠ .null ∧ o ≠ .undef := by
  cases o <;> simp_all [truthy]

lemma getProp_ok {o : JSVal} (h1 : o ≠ .null) (h2 : o ≠ .undef) (k : String) :
    ∃ v, getProp o k = .ok v := by
  cases o <;> simp_all [getProp]

lemma jsSize_pos (v : JSVal) : 1 ≤ jsSize v := by
  cases v <;> simp [jsSize]

lemma jsSizeL_pos (xs : List JSVal) : 1 ≤ jsSizeL xs := by
  cases xs with
  | nil => simp [jsSizeL]
  | cons x rest => simp [jsSizeL]; omega

lemma jsSizeF_pos (fs : List (String × JSVal)) : 1 ≤ jsSizeF fs := by
  cases fs with
  | nil => simp [jsSizeF]
  | cons p rest => rcases p with ⟨k, v⟩; simp [jsSizeF]; omega

lemma findField_size {fields : List (String × JSVal)} {k : String} {v : JSVal}
    (h : findField fields k = some v) : jsSize v < jsSizeF fields := by
  induction fields with
  | nil => simp [findField] at h
  | cons p rest ih =>
    rcases p with ⟨k0, v0⟩
    simp only [findField] at h
    split at h
    · rcases Option.some.injEq .. ▸ h with rfl
      simp only [jsSizeF]
      omega
    · have := ih h
      simp only [jsSizeF]
      omega

lemma mem_jsSizeL {x : JSVal} {xs : List JSVal} (h : x ∈ xs) :
    jsSize x < jsSizeL xs := by
  induction xs with
  | nil => cases h
  | cons y ys ih =>
    rcases List.mem_cons.mp h with rfl | h
    · have := jsSizeL_pos ys
      simp only [jsSizeL]
      omega
    · have := ih h
      have := jsSize_pos y
      simp only [jsSizeL]
      omega

lemma walkAnswers_ok (lt : String) (li bi : JSVal) (as : List JSVal)
    (h : ∀ x ∈ as, x ≠ .null ∧ x ≠ .undef) :
    ∃ es, walkAnswers lt li bi as = .ok es := by
  induction as with
  | nil => exact ⟨[], rfl⟩
  | cons a rest ih =>
    rw [walkAnswers]
    refine isOkE_bind (getProp_ok (h a (List.mem_cons_self a rest)).1
      (h a (List.mem_cons_self a rest)).2 "title") ?_
    intro t _
    refine isOkE_bind ?_ ?_
    · split
      · exact isOkE_bind (getProp_ok (h a (List.mem_cons_self a rest)).1
          (h a (List.mem_cons_self a rest)).2 "correct") (fun c _ => ⟨_, rfl⟩)
      · exact ⟨[], rfl⟩
    · intro es _
      refine isOkE_bind (ih ?_) (fun more _ => ⟨_, rfl⟩)
      intro x hx
      exact h x (List.mem_cons_of_mem a hx)

lemma safeVal_obj_inv {fields : List (String × JSVal)} (h : SafeVal (.obj fields)) :
    (∀ a, findField fields "answers" = some a → truthy a = true →
      (∃ xs, a = .arr xs ∧ ∀ x ∈ xs, x ≠ .null ∧ x ≠ .undef) ∨ (∃ s, a = .str s)) ∧
    (∀ xs, findField fields "items" = some (.arr xs) → ∀ x ∈ xs, SafeVal x) ∧
    (∀ xs, findField fields "slides" = some (.arr xs) →
      ∀ x ∈ xs, x ≠ .null ∧ x ≠ .undef) ∧
    (∀ xs, findField fields "slides" = some (.arr xs) → ∀ x ∈ xs, SafeVal x) := by
  cases h
  case obj a b c d => exact ⟨a, b, c, d⟩

lemma walkF_safe_ok (lt : String) (li bi : JSVal) :
    ∀ (fuel : Nat) (task : WTask), taskSize task < fuel → SafeTask task →
      ∃ es, walkF lt li bi fuel task = .ok es := by
  intro fuel
  induction fuel with
  | zero =>
    intro task hsz _
    exact absurd hsz (Nat.not_lt_zero _)
  | succ fuel ih =>
    intro task hsz hsafe
    cases task with
    | val o =>
      by_cases htr : truthy o = true
      · cases o with
        | null => cases htr
        | undef => cases htr
        | bool b =>
          rw [walkF]
          simp only [htr, Bool.not_true, Bool.false_eq_true, if_false]
          exact ⟨_, rfl⟩
        | num n =>
          rw [walkF]
          simp only [htr, Bool.not_true, Bool.false_eq_true, if_false]
          exact ⟨_, rfl⟩
        | str s =>
          rw [walkF]
          simp only [htr, Bool.not_true, Bool.false_eq_true, if_false]
          exact ⟨_, rfl⟩
        | arr xs =>
          rw [walkF]
          simp only [htr, Bool.not_true, Bool.false_eq_true, if_false]
          exact ⟨_, rfl⟩
        | obj fields =>
          obtain ⟨hans, hitems, hslidesn, hslides⟩ := safeVal_obj_inv hsafe
          rw [walkF]
          simp only [htr, Bool.not_true, Bool.false_eq_true, if_false, getProp,
            except_ok_bind]
          refine isOkE_bind ?_ fun e5 _ => ?_
          · cases hff : findField fields "answers" with
            | none => exact ⟨[], rfl⟩
            | some av =>
              simp only [Option.getD_some]
              by_cases htra : truthy av = true
              · simp only [htra, if_true]
                rcases hans av hff htra with ⟨xs, rfl, hxs⟩ | ⟨sv, rfl⟩
                · refine isOkE_bind ⟨xs, rfl⟩ fun as has => ?_
                  simp only [asIterable, Except.ok.injEq] at has
                  subst has
                  exact walkAnswers_ok lt li bi xs hxs
                · refine isOkE_bind ⟨_, rfl⟩ fun as has => ?_
                  simp only [asIterable, Except.ok.injEq] at has
                  subst has
                  refine walkAnswers_ok lt li bi _ ?_
                  intro x hx
                  rw [List.mem_map] at hx
                  obtain ⟨c, _, rfl⟩ := hx
                  exact ⟨by simp, by simp⟩
              · simp only [Bool.not_eq_true] at htra
                simp only [htra, Bool.false_eq_true, if_false]
                exact ⟨[], rfl⟩
          · refine isOkE_bind ?_ fun e6 _ => ?_
            · cases hff : findField fields "items" with
              | none => exact ⟨[], rfl⟩
              | some v =>
                simp only [Option.getD_some]
                cases v with
                | arr xs =>
                  have hsz2 : jsSizeL xs < fuel := by
                    have h1 := findField_size hff
                    simp only [taskSize, jsSize] at hsz
                    simp only [jsSize] at h1
                    omega
                  exact ih (.elems xs) hsz2 (hitems xs hff)
                | null => exact ⟨[], rfl⟩
                | undef => exact ⟨[], rfl⟩
                | bool b => exact ⟨[], rfl⟩
                | num n => exact ⟨[], rfl⟩
                | str s => exact ⟨[], rfl⟩
                | obj fs => exact ⟨[], rfl⟩
            · refine isOkE_bind ?_ fun e7 _ => ⟨_, rfl⟩
              cases hff : findField fields "slides" with
              | none => exact ⟨[], rfl⟩
              | some v =>
                simp only [Option.getD_some]
                cases v with
                | arr xs =>
                  have hsz2 : jsSizeL xs < fuel := by
                    have h1 := findField_size hff
                    simp only [taskSize, jsSize] at hsz
                    simp only [jsSize] at h1
                    omega
                  refine ih (.slides xs) hsz2 ?_
                  intro x hx
                  exact ⟨hslidesn xs hff x hx, hslides xs hff x hx⟩
                | null => exact ⟨[], rfl⟩
                | undef => exact ⟨[], rfl⟩
                | bool b => exact ⟨[], rfl⟩
                | num n => exact ⟨[], rfl⟩
                | str s => exact ⟨[], rfl⟩
                | obj fs => exact ⟨[], rfl⟩
      · rw [walkF]
        simp only [Bool.not_eq_true] at htr
        rw [htr]
        exact ⟨[], rfl⟩
    | elems xs =>
      cases xs with
      | nil => exact ⟨[], by rw [walkF]⟩
      | cons x rest =>
        rw [walkF]
        simp only [taskSize, jsSizeL] at hsz
        have hx1 : jsSize x < fuel := by
          have := jsSizeL_pos rest
          omega
        have hx2 : jsSizeL rest < fuel := by
          have := jsSize_pos x
          omega
        refine isOkE_bind (ih (.val x) hx1 (hsafe x (List.mem_cons_self x rest)))
          fun a _ => ?_
        refine isOkE_bind (ih (.elems rest) hx2 ?_) fun b _ => ⟨_, rfl⟩
        intro y hy
        exact hsafe y (List.mem_cons_of_mem x hy)
    | slides xs =>
      cases xs with
      | nil => exact ⟨[], by rw [walkF]⟩
      | cons s rest =>
        rw [walkF]
        simp only [taskSize, jsSizeL] at hsz
        have hs1 : jsSize s < fuel := by
          have := jsSizeL_pos rest
          omega
        have hs2 : jsSizeL rest < fuel := by
          have := jsSize_pos s
          omega
        obtain ⟨hn, hsv⟩ := hsafe s (List.mem_cons_self s rest)
        refine isOkE_bind (getProp_ok hn.1 hn.2 "description") fun d _ => ?_
        refine isOkE_bind (ih (.val s) hs1 hsv) fun a _ => ?_
        refine isOkE_bind (ih (.slides rest) hs2 ?_) fun b _ => ⟨_, rfl⟩
        intro y hy
        exact hsafe y (List.mem_cons_of_mem s hy)

lemma getBlockTitleGo_ok (xs : List JSVal)
    (h : ∀ x ∈ xs, x ≠ .null ∧ x ≠ .undef) :
    ∃ t, getBlockTitleGo xs = .ok t := by
  induction xs with
  | nil => exact ⟨"Section", rfl⟩
  | cons it rest ih =>
    rw [getBlockTitleGo]
    obtain ⟨hn, hu⟩ := h it (List.mem_cons_self it rest)
    refine isOkE_bind (getProp_ok hn hu "heading") fun hv _ => ?_
    split
    · exact ⟨_, rfl⟩
    · refine isOkE_bind (getProp_ok hn hu "paragraph") fun pv _ => ?_
      split
      · exact ⟨_, rfl⟩
      · refine isOkE_bind (getProp_ok hn hu "title") fun tv _ => ?_
        split
        · exact ⟨_, rfl⟩
        · exact ih fun x hx => h x (List.mem_cons_of_mem it hx)

lemma safeBlock_items_shape {bl : JSVal} (hb : SafeBlock bl) (htr : truthy bl = true)
    {iv : JSVal} (hget : getProp bl "items" = .ok iv) (hti : truthy iv = true) :
    (∃ xs, iv = .arr xs ∧ ∀ x ∈ xs, (x ≠ .null ∧ x ≠ .undef) ∧ SafeVal x) ∧
    (∀ fields, bl = .obj fields → findField fields "items" = some iv) := by
  cases bl with
  | obj fields =>
    have hgv : iv = (findField fields "items").getD .undef := by
      have := hget
      simp only [getProp, Except.ok.injEq] at this
      exact this.symm
    rcases hffv : findField fields "items" with _ | v
    · rw [hffv] at hgv
      simp only [Option.getD_none] at hgv
      subst hgv
      cases hti
    · rw [hffv] at hgv
      simp only [Option.getD_some] at hgv
      subst hgv
      obtain ⟨xs, hxs1, hxs2⟩ := hb.2.2 fields iv rfl hffv hti
      refine ⟨⟨xs, hxs1, hxs2⟩, ?_⟩
      intro fields2 heq
      rcases JSVal.obj.injEq .. ▸ heq with rfl
      exact hffv
  | null => cases htr
  | undef => cases htr
  | bool b =>
    have hgv : iv = JSVal.undef := by
      have := hget
      simp only [getProp, Except.ok.injEq] at this
      exact this.symm
    subst hgv
    cases hti
  | num n =>
    have hgv : iv = JSVal.undef := by
      have := hget
      simp only [getProp, Except.ok.injEq] at this
      exact this.symm
    subst hgv
    cases hti
  | str s =>
    have hgv : iv = JSVal.undef := by
      have := hget
      simp only [getProp, Except.ok.injEq] at this
      exact this.symm
    subst hgv
    cases hti
  | arr ys =>
    have hgv : iv = JSVal.undef := by
      have := hget
      simp only [getProp, Except.ok.injEq] at this
      exact this.symm
    subst hgv
    cases hti

lemma getBlockTitle_ok (bl : JSVal) (hb : SafeBlock bl) :
    ∃ t, getBlockTitle bl = .ok t := by
  rw [getBlockTitle]
  split
  · exact ⟨"Section", rfl⟩
  · rename_i htr0
    have htr : truthy bl = true := by simpa using htr0
    refine isOkE_bind (getProp_ok hb.1 hb.2.1 "items") fun items hget => ?_
    split
    · exact ⟨"Section", rfl⟩
    · rename_i hti0
      have hti : truthy items = true := by simpa using hti0
      obtain ⟨⟨xs, rfl, hxs⟩, -⟩ := safeBlock_items_shape hb htr hget hti
      refine isOkE_bind ⟨xs, rfl⟩ fun ys hys => ?_
      simp only [asIterable, Except.ok.injEq] at hys
      subst hys
      exact getBlockTitleGo_ok xs fun x hx => (hxs x hx).1

lemma extractFromBlock_ok (fuel : Nat) (bl : JSVal) (lt : String) (li : JSVal)
    (hsize : jsSize bl < fuel) (hb : SafeBlock bl) :
    ∃ es, extractFromBlock fuel bl lt li = .ok es := by
  rw [extractFromBlock]
  split
  · exact ⟨[], rfl⟩
  · rename_i htr0
    have htr : truthy bl = true := by simpa using htr0
    refine isOkE_bind (getProp_ok hb.1 hb.2.1 "items") fun items hget => ?_
    split
    · exact ⟨[], rfl⟩
    · rename_i hti0
      have hti : truthy items = true := by simpa using hti0
      obtain ⟨⟨xs, rfl, hxs⟩, hfind⟩ := safeBlock_items_shape hb htr hget hti
      refine isOkE_bind (getProp_ok hb.1 hb.2.1 "id") fun id0 _ => ?_
      have hsz2 : jsSizeL xs < fuel := by
        cases bl with
        | obj fields =>
          have h1 := findField_size (hfind fields rfl)
          simp only [jsSize] at h1 hsize
          omega
        | null => cases htr
        | undef => cases htr
        | bool b =>
          have := hget
          simp only [getProp, Except.ok.injEq] at this
          cases this
        | num n =>
          have := hget
          simp only [getProp, Except.ok.injEq] at this
          cases this
        | str s =>
          have := hget
          simp only [getProp, Except.ok.injEq] at this
          cases this
        | arr ys =>
          have := hget
          simp only [getProp, Except.ok.injEq] at this
          cases this
      exact walkF_safe_ok lt li _ fuel (.elems xs) hsz2 fun x hx => (hxs x hx).2

lemma buildBlocks_ok (fuel : Nat) (lt : String) (li : JSVal) (bls : List JSVal)
    (hsize : jsSizeL bls < fuel) (hb : ∀ bl ∈ bls, SafeBlock bl) :
    ∃ r, buildBlocks fuel lt li bls = .ok r := by
  induction bls with
  | nil => exact ⟨([], []), rfl⟩
  | cons bl rest ih =>
    rw [buildBlocks]
    simp only [jsSizeL] at hsize
    have h1 : jsSize bl < fuel := by
      have := jsSizeL_pos rest
      omega
    have h2 : jsSizeL rest < fuel := by
      have := jsSize_pos bl
      omega
    have hblb := hb bl (List.mem_cons_self bl rest)
    refine isOkE_bind (extractFromBlock_ok fuel bl lt li h1 hblb) fun es _ => ?_
    refine isOkE_bind (getProp_ok hblb.1 hblb.2.1 "id") fun id0 _ => ?_
    refine isOkE_bind (getBlockTitle_ok bl hblb) fun t _ => ?_
    refine isOkE_bind (ih h2 ?_) fun r _ => ⟨_, rfl⟩
    intro x hx
    exact hb x (List.mem_cons_of_mem bl hx)

lemma buildLesson_ok (fuel : Nat) (les : JSVal) (hsize : jsSize les < fuel)
    (hl : SafeLesson les) : ∃ r, buildLesson fuel les = .ok r := by
  rw [buildLesson]
  refine isOkE_bind (getProp_ok hl.1 hl.2.1 "id") fun id0 _ => ?_
  refine isOkE_bind (getProp_ok hl.1 hl.2.1 "title") fun title0 _ => ?_
  refine isOkE_bind (getProp_ok hl.1 hl.2.1 "items") fun items0 hget => ?_
  by_cases hti : truthy items0 = true
  · cases les with
    | obj fields =>
      simp only [getProp, Except.ok.injEq] at hget
      cases hff : findField fields "items" with
      | none =>
        rw [hff] at hget
        simp only [Option.getD_none] at hget
        rw [← hget] at hti
        cases hti
      | some v =>
        rw [hff] at hget
        simp only [Option.getD_some] at hget
        subst hget
        obtain ⟨bls, rfl, hbls⟩ := hl.2.2 fields v rfl hff hti
        have hsz2 : jsSizeL bls < fuel := by
          have h1 := findField_size hff
          simp only [jsSize] at h1 hsize
          omega
        simp only [jsOr, hti, if_true]
        refine isOkE_bind (buildBlocks_ok fuel _ _ bls hsz2 hbls) fun r _ => ⟨_, rfl⟩
    | null => exact absurd rfl hl.1
    | undef => exact absurd rfl hl.2.1
    | bool b =>
      simp only [getProp, Except.ok.injEq] at hget
      rw [← hget] at hti
      cases hti
    | num n =>
      simp only [getProp, Except.ok.injEq] at hget
      rw [← hget] at hti
      cases hti
    | str s =>
      simp only [getProp, Except.ok.injEq] at hget
      rw [← hget] at hti
      cases hti
    | arr ys =>
      simp only [getProp, Except.ok.injEq] at hget
      rw [← hget] at hti
      cases hti
  · simp only [Bool.not_eq_true] at hti
    simp only [jsOr, hti, Bool.false_eq_true, if_false]
    have hsz2 : jsSizeL ([] : List JSVal) < fuel := by
      have := jsSize_pos les
      simp only [jsSizeL]
      omega
    refine isOkE_bind (buildBlocks_ok fuel _ _ [] hsz2 (by intro x hx; cases hx))
      fun r _ => ⟨_, rfl⟩

lemma buildLessons_ok (fuel : Nat) (ls : List JSVal) (hsize : jsSizeL ls < fuel)
    (h : ∀ les ∈ ls, SafeLesson les) : ∃ r, buildLessons fuel ls = .ok r := by
  induction ls with
  | nil => exact ⟨([], []), rfl⟩
  | cons les rest ih =>
    rw [buildLessons]
    simp only [jsSizeL] at hsize
    have h1 : jsSize les < fuel := by
      have := jsSizeL_pos rest
      omega
    have h2 : jsSizeL rest < fuel := by
      have := jsSize_pos les
      omega
    refine isOkE_bind (buildLesson_ok fuel les h1 (h les (List.mem_cons_self les rest)))
      fun r1 _ => ?_
    refine isOkE_bind (ih h2 ?_) fun r2 _ => ⟨_, rfl⟩
    intro x hx
    exact h x (List.mem_cons_of_mem les hx)

/-- C10 amended.  Building the index never raises on a tree whose arrays
hold only safe values (objects may miss any field; absence contributes
nothing), and an object node with none of the recognized fields is silently
skipped, contributing no entries; but a malformed value in an unexpected
position, such as a `null` lesson, raises a `TypeError` (see the
counterexample). -/
theorem buildFromCourse_safe_total :
    (∀ course : JSVal, SafeCourse course → ∃ r, buildFromCourse course = .ok r) ∧
    (∀ (fields : List (String × JSVal)) (fuel : Nat) (lt : String) (li bi : JSVal),
      findField fields "heading" = none → findField fields "paragraph" = none →
      findField fields "caption" = none → findField fields "title" = none →
      findField fields "answers" = none → findField fields "items" = none →
      findField fields "slides" = none →
      walkF lt li bi (fuel + 1) (.val (.obj fields)) = .ok []) ∧
    buildFromCourse .null = .ok ([], []) ∧
    buildFromCourse (.obj []) = .ok ([], []) := by
  refine ⟨?_, ?_, rfl, rfl⟩
  · intro course hsafe
    obtain ⟨ls, hls, hsafels⟩ := hsafe
    rw [buildFromCourse]
    by_cases htr : truthy course = true
    · rw [if_pos htr]
      cases course with
      | null => exact Bool.noConfusion htr
      | undef => exact Bool.noConfusion htr
      | obj fields =>
        refine isOkE_bind ⟨_, rfl⟩ fun lv hlv => ?_
        simp only [getProp, Except.ok.injEq] at hlv
        subst hlv
        have hls2 : (match jsOr ((findField fields "lessons").getD .undef) (.arr []) with
            | JSVal.arr ls1 => some ls1
            | _ => none) = some ls := hls
        cases hff : findField fields "lessons" with
        | none =>
          simp only [hff, Option.getD_none] at hls2 ⊢
          have hls3 : some ([] : List JSVal) = some ls := hls2
          simp only [Option.some.injEq] at hls3
          subst hls3
          show ∃ r, buildLessons (jsSize (JSVal.obj fields) + 1) [] = .ok r
          refine buildLessons_ok _ [] ?_ hsafels
          have := jsSizeF_pos fields
          simp only [jsSizeL, jsSize]
          omega
        | some v =>
          simp only [hff, Option.getD_some] at hls2 ⊢
          by_cases htv : truthy v = true
          · simp only [jsOr] at hls2 ⊢
            rw [if_pos htv] at hls2 ⊢
            cases v with
            | arr xs =>
              have hls3 : some xs = some ls := hls2
              simp only [Option.some.injEq] at hls3
              subst hls3
              show ∃ r, buildLessons (jsSize (JSVal.obj fields) + 1) xs = .ok r
              refine buildLessons_ok _ xs ?_ hsafels
              have h1 := findField_size hff
              simp only [jsSize] at h1 ⊢
              omega
            | null => exact Option.noConfusion hls2
            | undef => exact Option.noConfusion hls2
            | bool b => exact Option.noConfusion hls2
            | num n => exact Option.noConfusion hls2
            | str s => exact Option.noConfusion hls2
            | obj g => exact Option.noConfusion hls2
          · simp only [jsOr] at hls2 ⊢
            rw [if_neg htv] at hls2 ⊢
            have hls3 : some ([] : List JSVal) = some ls := hls2
            simp only [Option.some.injEq] at hls3
            subst hls3
            show ∃ r, buildLessons (jsSize (JSVal.obj fields) + 1) [] = .ok r
            refine buildLessons_ok _ [] ?_ hsafels
            have := jsSizeF_pos fields
            simp only [jsSizeL, jsSize]
            omega
      | bool b =>
        cases b with
        | false => exact Bool.noConfusion htr
        | true =>
          refine isOkE_bind ⟨.undef, rfl⟩ fun lv hlv => ?_
          simp only [getProp, Except.ok.injEq] at hlv
          subst hlv
          have hls3 : some ([] : List JSVal) = some ls := hls
          simp only [Option.some.injEq] at hls3
          subst hls3
          show ∃ r, buildLessons (jsSize (JSVal.bool true) + 1) [] = .ok r
          exact buildLessons_ok _ [] (by simp only [jsSizeL, jsSize]; omega) hsafels
      | num n =>
        refine isOkE_bind ⟨.undef, rfl⟩ fun lv hlv => ?_
        simp only [getProp, Except.ok.injEq] at hlv
        subst hlv
        have hls2 : (match jsOr (if truthy (JSVal.num n) = true then JSVal.undef
              else JSVal.num n) (JSVal.arr []) with
            | JSVal.arr ls1 => some ls1
            | _ => none) = some ls := hls
        rw [if_pos htr] at hls2
        have hls3 : some ([] : List JSVal) = some ls := hls2
        simp only [Option.some.injEq] at hls3
        subst hls3
        show ∃ r, buildLessons (jsSize (JSVal.num n) + 1) [] = .ok r
        exact buildLessons_ok _ [] (by simp only [jsSizeL, jsSize]; omega) hsafels
      | str s =>
        refine isOkE_bind ⟨.undef, rfl⟩ fun lv hlv => ?_
        simp only [getProp, Except.ok.injEq] at hlv
        subst hlv
        have hls2 : (match jsOr (if truthy (JSVal.str s) = true then JSVal.undef
              else JSVal.str s) (JSVal.arr []) with
            | JSVal.arr ls1 => some ls1
            | _ => none) = some ls := hls
        rw [if_pos htr] at hls2
        have hls3 : some ([] : List JSVal) = some ls := hls2
        simp only [Option.some.injEq] at hls3
        subst hls3
        show ∃ r, buildLessons (jsSize (JSVal.str s) + 1) [] = .ok r
        exact buildLessons_ok _ [] (by simp only [jsSizeL, jsSize]; omega) hsafels
      | arr xs =>
        refine isOkE_bind ⟨.undef, rfl⟩ fun lv hlv => ?_
        simp only [getProp, Except.ok.injEq] at hlv
        subst hlv
        have hls3 : some ([] : List JSVal) = some ls := hls
        simp only [Option.some.injEq] at hls3
        subst hls3
        show ∃ r, buildLessons (jsSize (JSVal.arr xs) + 1) [] = .ok r
        refine buildLessons_ok _ [] ?_ hsafels
        have := jsSizeL_pos xs
        simp only [jsSizeL, jsSize]
        omega
    · rw [if_neg htr]
      refine isOkE_bind ⟨course, rfl⟩ fun lv hlv => ?_
      simp only [Except.ok.injEq] at hlv
      subst hlv
      cases course with
      | null =>
        have hls3 : some ([] : List JSVal) = some ls := hls
        simp only [Option.some.injEq] at hls3
        subst hls3
        show ∃ r, buildLessons (jsSize JSVal.null + 1) [] = .ok r
        exact buildLessons_ok _ [] (by simp only [jsSizeL, jsSize]; omega) hsafels
      | undef =>
        have hls3 : some ([] : List JSVal) = some ls := hls
        simp only [Option.some.injEq] at hls3
        subst hls3
        show ∃ r, buildLessons (jsSize JSVal.undef + 1) [] = .ok r
        exact buildLessons_ok _ [] (by simp only [jsSizeL, jsSize]; omega) hsafels
      | bool b =>
        cases b with
        | true => exact absurd rfl htr
        | false =>
          have hls3 : some ([] : List JSVal) = some ls := hls
          simp only [Option.some.injEq] at hls3
          subst hls3
          show ∃ r, buildLessons (jsSize (JSVal.bool false) + 1) [] = .ok r
          exact buildLessons_ok _ [] (by simp only [jsSizeL, jsSize]; omega) hsafels
      | num n =>
        have hls2 : (match jsOr (if truthy (JSVal.num n) = true then JSVal.undef
              else JSVal.num n) (JSVal.arr []) with
            | JSVal.arr ls1 => some ls1
            | _ => none) = some ls := hls
        rw [if_neg htr] at hls2
        simp only [jsOr] at hls2 ⊢
        rw [if_neg htr] at hls2 ⊢
        have hls3 : some ([] : List JSVal) = some ls := hls2
        simp only [Option.some.injEq] at hls3
        subst hls3
        show ∃ r, buildLessons (jsSize (JSVal.num n) + 1) [] = .ok r
        exact buildLessons_ok _ [] (by simp only [jsSizeL, jsSize]; omega) hsafels
      | str s =>
        have hls2 : (match jsOr (if truthy (JSVal.str s) = true then JSVal.undef
              else JSVal.str s) (JSVal.arr []) with
            | JSVal.arr ls1 => some ls1
            | _ => none) = some ls := hls
        rw [if_neg htr] at hls2
        simp only [jsOr] at hls2 ⊢
        rw [if_neg htr] at hls2 ⊢
        have hls3 : some ([] : List JSVal) = some ls := hls2
        simp only [Option.some.injEq] at hls3
        subst hls3
        show ∃ r, buildLessons (jsSize (JSVal.str s) + 1) [] = .ok r
        exact buildLessons_ok _ [] (by simp only [jsSizeL, jsSize]; omega) hsafels
      | arr xs => exact absurd rfl htr
      | obj fields => exact absurd rfl htr
  · intro fields fuel lt li bi h1 h2 h3 h4 h5 h6 h7
    rw [walkF]
    simp [getProp, h1, h2, h3, h4, h5, h6, h7, truthy, except_ok_bind]

/-- Witness for C10's amended claim: a course whose lessons array is empty
is safe and builds successfully. -/
theorem buildFromCourse_safe_total_witness :
    ∃ r, buildFromCourse (.obj [("lessons", .arr [])]) = .ok r :=
  buildFromCourse_safe_total.1 (.obj [("lessons", .arr [])])
    ⟨[], rfl, by intro les h; cases h⟩

/-- C10 counterexample.  Building the index raises a `TypeError` on a tree
with a `null` element in the lessons array (at `les.id`), and likewise on a
`null` element of an `answers` array (at `a.title`). -/
theorem buildFromCourse_null_raises :
    buildFromCourse nullLessonTree = .error "TypeError" ∧
    buildFromCourse nullAnswerTree = .error "TypeError" :=
  ⟨by with_unfolding_all rfl, by with_unfolding_all rfl⟩

end PlainLang
